import Mathlib

/-!
A verification development for the `gitignore` CLI tool.

Strings are modelled as `List Char` (Go strings are sequences of runes for all the
operations involved here).  File-system state is modelled by passing the file content
explicitly: the manager's `Read` returns `""` for an absent file and `write` replaces
the whole content, so every operation becomes a pure function from the current content
to either an error or the new content.
-/

abbrev Str := List Char

def toL (s : String) : Str := s.toList

/-- Go's `unicode.IsSpace`: the Unicode White_Space property (a fixed set of code
points: U+0009..U+000D, U+0020, U+0085, U+00A0, U+1680, U+2000..U+200A, U+2028,
U+2029, U+202F, U+205F, U+3000). -/
def goIsSpace (c : Char) : Bool :=
  let n := c.toNat
  (9 ≤ n && n ≤ 13) || n == 32 || n == 0x85 || n == 0xA0 || n == 0x1680 ||
    (0x2000 ≤ n && n ≤ 0x200A) || n == 0x2028 || n == 0x2029 || n == 0x202F ||
    n == 0x205F || n == 0x3000

/-- Go `strings.TrimSpace`: drop leading and trailing white space. -/
def trimSpace (s : Str) : Str :=
  ((s.dropWhile goIsSpace).reverse.dropWhile goIsSpace).reverse

/-- Go `strings.TrimRight(s, cutset)`: drop trailing characters contained in `cut`. -/
def trimRightCut (cut : Str) (s : Str) : Str :=
  (s.reverse.dropWhile (fun c => cut.contains c)).reverse

/-- Go `strings.Trim(s, cutset)`: drop leading and trailing characters in `cut`. -/
def trimCut (cut : Str) (s : Str) : Str :=
  trimRightCut cut (s.dropWhile (fun c => cut.contains c))

def hasPrefixB (p s : Str) : Bool := List.isPrefixOf p s

def hasSuffixB (p s : Str) : Bool := List.isSuffixOf p s

/-- Go `strings.TrimSuffix`. -/
def trimSuffixStr (suf s : Str) : Str :=
  if hasSuffixB suf s then s.take (s.length - suf.length) else s

/-- The dropCR helper of Go's `bufio.ScanLines`: drop one trailing carriage return. -/
def dropCR (l : Str) : Str :=
  if hasSuffixB (toL "\r") l then l.take (l.length - 1) else l

/-- Line scanning as done by `bufio.Scanner` with `ScanLines`: tokens are separated
by `'\n'`, a trailing final newline produces no extra empty token, and each token has
one trailing `'\r'` removed. `acc` holds the current line, reversed. -/
def splitLinesAux : Str → Str → List Str
  | acc, [] => if acc.isEmpty then [] else [dropCR acc.reverse]
  | acc, c :: rest =>
    if c = '\n' then dropCR acc.reverse :: splitLinesAux [] rest
    else splitLinesAux (c :: acc) rest

def splitLines (s : Str) : List Str := splitLinesAux [] s

/-- Write a list of lines back out, `'\n'` after every line (as `Delete`'s rewrite
loop does with `result.WriteString(line); result.WriteString("\n")`). -/
def joinLines (ls : List Str) : Str := (ls.map (fun l => l ++ ['\n'])).flatten

/-- Split at the first occurrence of `sep`: `some (before, after)` when `sep` occurs
as a contiguous substring, `none` otherwise. -/
def breakOnSub (sep : Str) : Str → Option (Str × Str)
  | [] => if List.isPrefixOf sep ([] : Str) then some ([], []) else none
  | c :: rest =>
    if List.isPrefixOf sep (c :: rest) then some ([], (c :: rest).drop sep.length)
    else (breakOnSub sep rest).map (fun pq => (c :: pq.1, pq.2))

/-- Go `strings.Contains`. -/
def containsSub (sep s : Str) : Bool := (breakOnSub sep s).isSome

/-- Go `strings.Split` with a one-character separator. -/
def splitCh (sep : Char) : Str → List Str
  | [] => [[]]
  | c :: rest =>
    if c = sep then [] :: splitCh sep rest
    else
      match splitCh sep rest with
      | [] => [[c]]
      | p :: ps => (c :: p) :: ps

/-! ## The section editor (`pkg/gitignore`, `Manager`) -/

namespace Gitignore

def SectionStartText : Str := toL "### START:"

def SectionEndText : Str := toL "### END:"

/-- The start marker line, `fmt.Sprintf("%s %s", SectionStartPrefix, sectionName)`. -/
def startMarker (n : Str) : Str := SectionStartText ++ ' ' :: n

/-- The end marker line, `fmt.Sprintf("%s %s", SectionEndPrefix, sectionName)`. -/
def endMarker (n : Str) : Str := SectionEndText ++ ' ' :: n

/-- Manager.HasSection: `strings.Contains(content, startMarker)`. -/
def HasSection (content n : Str) : Bool := containsSub (startMarker n) content

def errAlreadyExists (n : Str) : Str :=
  toL "section '" ++ n ++ toL "' already exists in .gitignore"

def errNotFound (n : Str) : Str :=
  toL "section '" ++ n ++ toL "' not found in .gitignore"

/-- Manager.Add: refuse if the start marker already occurs; otherwise append a
blank-line separator (for non-empty content), the start marker line, the trimmed
section content with exactly one trailing newline, and the end marker line. -/
def Add (content n c : Str) : Except Str Str :=
  if HasSection content n then .error (errAlreadyExists n)
  else
    let base :=
      if content = [] then []
      else content ++ (if hasSuffixB (toL "\n") content then [] else ['\n']) ++ ['\n']
    let c' := trimSpace c
    .ok (base ++ startMarker n ++ ['\n'] ++ c' ++
      (if hasSuffixB (toL "\n") c' then [] else ['\n']) ++ endMarker n ++ ['\n'])

/-- The scan loop of `Manager.Delete`: walks the lines with the `inSection` and
`prevLineEmpty` flags, returning the retained lines and the `foundSection` flag. -/
def deleteLoop (sm em : Str) : List Str → Bool → Bool → (List Str × Bool)
  | [], _, _ => ([], false)
  | l :: ls, inSec, prev =>
    if trimSpace l = sm then
      ((deleteLoop sm em ls true prev).1, true)
    else if trimSpace l = em then deleteLoop sm em ls false prev
    else if inSec then deleteLoop sm em ls true prev
    else if trimSpace l = [] then
      if prev then deleteLoop sm em ls false prev
      else
        let r := deleteLoop sm em ls false true
        (l :: r.1, r.2)
    else
      let r := deleteLoop sm em ls false false
      (l :: r.1, r.2)

/-- Manager.Delete: error on empty content or marker not found; otherwise rewrite
the retained lines, trim trailing `"\n\t "` characters and re-add one final newline
when the result is non-empty. -/
def Delete (content n : Str) : Except Str Str :=
  if content = [] then .error (errNotFound n)
  else
    let r := deleteLoop (startMarker n) (endMarker n) (splitLines content) false false
    if r.2 = false then .error (errNotFound n)
    else
      let fc := trimRightCut (toL "\n\t ") (joinLines r.1)
      .ok (if fc = [] then [] else fc ++ ['\n'])

def IgnoredSectionText : Str := toL "ignored/"

/-- Manager.AddPatterns (section-wrapped variant): each trimmed non-empty pattern
gets the wrapped section name `"ignored/" + pattern`; existing sections are recorded
as skipped, the rest are added via `Add` with the pattern as the one-line content.
On an `Add` error Go returns the error together with the lists accumulated so far;
that branch is unreachable here (`Add` is guarded by the same `HasSection` check),
so the model keeps only the error message. -/
def AddPatterns : Str → List Str → Except Str (Str × List Str × List Str)
  | content, [] => .ok (content, [], [])
  | content, p :: ps =>
    let p' := trimSpace p
    if p' = [] then AddPatterns content ps
    else
      let name := IgnoredSectionText ++ p'
      if HasSection content name then
        (AddPatterns content ps).map (fun r => (r.1, r.2.1, p' :: r.2.2))
      else
        match Add content name p' with
        | .error e => .error e
        | .ok c2 => (AddPatterns c2 ps).map (fun r => (r.1, p' :: r.2.1, r.2.2))

/-- Manager.RemovePattern: reject the empty pattern, else delete the wrapped
section. -/
def RemovePattern (content p : Str) : Except Str Str :=
  let p' := trimSpace p
  if p' = [] then .error (toL "pattern cannot be empty")
  else Delete content (IgnoredSectionText ++ p')

end Gitignore

/-! ## The GitHub client (`pkg/github`), repository-URL parsing -/

namespace GithubClient

def ghSlash : Str := toL "github.com/"

def sshStart : Str := toL "git@github.com:"

def gitExt : Str := toL ".git"

/-- The body of `parseRepoURL` after the `".git"` suffix has been trimmed.
`strings.Split(u, "github.com/")` yields pieces `parts`; `parts[1]` is the text
between the first and the second occurrence (or the rest of the string), here
recovered with `breakOnSub`. -/
def parseRepoCore (u : Str) : Except Str (Str × Str) :=
  if containsSub ghSlash u then
    match breakOnSub ghSlash u with
    | some pq =>
      let part1 :=
        match breakOnSub ghSlash pq.2 with
        | some mq => mq.1
        | none => pq.2
      match splitCh '/' (trimCut (toL "/") part1) with
      | p0 :: p1 :: _ => .ok (p0, p1)
      | _ => .error (toL "invalid GitHub URL: " ++ u)
    | none => .error (toL "invalid GitHub URL: " ++ u)
  else if hasPrefixB sshStart u then
    match splitCh '/' (u.drop sshStart.length) with
    | p0 :: p1 :: _ => .ok (p0, p1)
    | _ => .error (toL "invalid GitHub SSH URL: " ++ u)
  else .error (toL "unsupported URL format: " ++ u)

/-- parseRepoURL: trim a `".git"` suffix, then try the `"github.com/"` and the
`"git@github.com:"` forms. -/
def parseRepoURL (repoURL : Str) : Except Str (Str × Str) :=
  parseRepoCore (trimSuffixStr gitExt repoURL)

end GithubClient

/-! ## The source resolver (`pkg/source`, `SourceManager`)

`Source.List()` performs I/O; a source is therefore modelled by the outcome of its
`List` call, `Except Str (List TemplateFile)`.  The `SourceManager` holds the local
source and the remote sources in configured order. -/

structure TemplateFile where
  Name : Str
  Path : Str
  Category : Str
  Source : Str
deriving DecidableEq, Repr

/-- ASCII case folding; Go's `strings.ToLower` restricted to ASCII letters, which is
all the listings under consideration use. -/
def asciiToLower (c : Char) : Char :=
  if 'A' ≤ c ∧ c ≤ 'Z' then Char.ofNat (c.toNat + 32) else c

def lowerStr (s : Str) : Str := s.map asciiToLower

/-- One iteration of `SourceManager.List`'s remote loop: a failing remote is
skipped, a succeeding remote's files are appended except those whose lower-cased
name already occurs in the local listing. -/
def smMergeRemote (localNames : List Str) (acc : List TemplateFile)
    (r : Except Str (List TemplateFile)) : List TemplateFile :=
  match r with
  | .error _ => acc
  | .ok files => acc ++ files.filter (fun f => !(localNames.contains (lowerStr f.Name)))

/-- SourceManager.List: local listing first (an error there aborts), then each
remote's listing in order, skipping remotes that fail and dropping every remote entry
whose lower-cased name already occurs in the local listing. -/
def smList (localRes : Except Str (List TemplateFile))
    (remotes : List (Except Str (List TemplateFile))) : Except Str (List TemplateFile) :=
  match localRes with
  | .error e => .error (toL "failed to list local templates: " ++ e)
  | .ok localFiles =>
    .ok (remotes.foldl (smMergeRemote (localFiles.map (fun f => lowerStr f.Name))) localFiles)

structure SourceResult where
  Files : List TemplateFile
  Error : Option Str
deriving DecidableEq, Repr

/-- SourceManager.ListBySource: one entry per configured source, a failing source
carrying an empty file list and its error.  Go collects the entries into a map keyed
by the (distinct) source names; the model keeps them as an association list in
iteration order. -/
def listBySource (sources : List (Str × Except Str (List TemplateFile))) :
    Except Str (List (Str × SourceResult)) :=
  .ok (sources.map (fun nr =>
    match nr.2 with
    | .error e => (nr.1, ⟨[], some e⟩)
    | .ok files => (nr.1, ⟨files, none⟩)))

/-- The per-source entry `ListBySource` stores for a source whose `List` call had
outcome `r`. -/
def sourceEntry (r : Except Str (List TemplateFile)) : SourceResult :=
  match r with
  | .error e => ⟨[], some e⟩
  | .ok files => ⟨files, none⟩

/-! ## Specification-side definitions

These follow the spec's words, for comparison against the code-derived definitions
above. -/

/-- Whether a line is blank, i.e. whitespace-only (`strings.TrimSpace(line) == ""`). -/
def isBlank (l : Str) : Bool := (trimSpace l).isEmpty

/-- Collapse every run of two or more consecutive blank lines into a single blank
line; `prev` records whether the previously kept line was blank. -/
def collapseBlankAux (prev : Bool) : List Str → List Str
  | [] => []
  | l :: ls =>
    if isBlank l then
      if prev then collapseBlankAux true ls else l :: collapseBlankAux true ls
    else l :: collapseBlankAux false ls

def collapseBlankRuns (ls : List Str) : List Str := collapseBlankAux false ls

/-- The blank-run state after processing `ls`. -/
def blankStateAfter (prev : Bool) : List Str → Bool
  | [] => prev
  | l :: ls => blankStateAfter (isBlank l) ls

/-- Rewrite a list of retained lines as `Delete` does: join with newlines, trim
trailing space/tab/newline characters, and end with exactly one newline unless the
result is empty. -/
def finalizeContent (ls : List Str) : Str :=
  let s := trimRightCut (toL "\n\t ") (joinLines ls)
  if s = [] then [] else s ++ ['\n']

/-- AddPatterns as the spec words it: for each input pattern (trimmed, empties
skipped) compute the wrapped section name (the fixed prefix concatenated with the
literal pattern text); if that section already exists record the pattern as skipped,
otherwise perform `Add` with the pattern itself as the one-line content and record it
as added; return the parallel added and skipped lists. -/
def addPatternsSpec : Str → List Str → Except Str (Str × List Str × List Str)
  | content, [] => .ok (content, [], [])
  | content, p :: ps =>
    let t := trimSpace p
    if t = [] then addPatternsSpec content ps
    else if Gitignore.HasSection content (Gitignore.IgnoredSectionText ++ t) then
      (addPatternsSpec content ps).map (fun r => (r.1, r.2.1, t :: r.2.2))
    else
      (Gitignore.Add content (Gitignore.IgnoredSectionText ++ t) t).bind (fun c2 =>
        (addPatternsSpec c2 ps).map (fun r => (r.1, t :: r.2.1, r.2.2)))

/-- Ends with exactly one `'\n'` (or is empty). -/
def endsOneNL (s : Str) : Bool :=
  s.isEmpty || (s.getLast? == some '\n' && s.dropLast.getLast? != some '\n')

deriving instance DecidableEq for Except

/-! ## Supporting lemmas: characters, suffixes, trimming -/

theorem toL_nl : toL "\n" = ['\n'] := rfl

theorem toL_cr : toL "\r" = ['\r'] := rfl

theorem dropWhile_head_false {α} (p : α → Bool) :
    ∀ (l : List α) {c : α} {rest : List α}, l.dropWhile p = c :: rest → p c = false := by
  intro l
  induction l with
  | nil => intro c rest h; simp [List.dropWhile] at h
  | cons a t ih =>
    intro c rest h
    rw [List.dropWhile_cons] at h
    by_cases hpa : p a = true
    · rw [if_pos hpa] at h; exact ih h
    · rw [if_neg hpa] at h
      cases h
      simpa using hpa

theorem singleton_prefix_iff_head {α} {c : α} {x : List α} : [c] <+: x ↔ x.head? = some c := by
  cases x with
  | nil => simp
  | cons a t =>
    constructor
    · rintro ⟨u, hu⟩
      rw [List.singleton_append] at hu
      cases hu
      rfl
    · intro h
      simp only [List.head?_cons, Option.some.injEq] at h
      exact h ▸ ⟨t, rfl⟩

theorem hasSuffixB_singleton {c : Char} {s : Str} :
    hasSuffixB [c] s = true ↔ s.getLast? = some c := by
  unfold hasSuffixB
  rw [List.isSuffixOf_iff_suffix, ← List.reverse_prefix, List.reverse_singleton,
    singleton_prefix_iff_head, List.head?_reverse]

theorem dropCR_eq_self {s : Str} (h : s.getLast? ≠ some '\r') : dropCR s = s := by
  unfold dropCR
  rw [toL_cr, if_neg]
  intro hc
  exact h (hasSuffixB_singleton.mp hc)

theorem hasSuffixB_nl_iff {s : Str} : hasSuffixB (toL "\n") s = true ↔ s.getLast? = some '\n' := by
  rw [toL_nl]; exact hasSuffixB_singleton

/-! ## Supporting lemmas: line splitting -/

theorem splitLinesAux_append_nl (a b : Str) :
    ∀ acc, splitLinesAux acc (a ++ '\n' :: b) = splitLinesAux acc (a ++ ['\n']) ++ splitLinesAux [] b := by
  induction a with
  | nil => intro acc; simp [splitLinesAux]
  | cons c a ih =>
    intro acc
    by_cases h : c = '\n' <;> simp [splitLinesAux, h, ih]

theorem splitLines_append_nl (a b : Str) :
    splitLines (a ++ '\n' :: b) = splitLines (a ++ ['\n']) ++ splitLines b :=
  splitLinesAux_append_nl a b []

theorem splitLinesAux_single_line {l : Str} (h : '\n' ∉ l) :
    ∀ acc, splitLinesAux acc (l ++ ['\n']) = [dropCR (acc.reverse ++ l)] := by
  induction l with
  | nil => intro acc; simp [splitLinesAux]
  | cons c l ih =>
    intro acc
    have hc : c ≠ '\n' := fun hc => h (hc ▸ List.mem_cons_self c l)
    have hl : '\n' ∉ l := fun hl => h (List.mem_cons_of_mem c hl)
    simp [splitLinesAux, hc, ih hl, List.append_assoc]

theorem splitLines_single_line {l : Str} (h1 : '\n' ∉ l) (h2 : l.getLast? ≠ some '\r') :
    splitLines (l ++ ['\n']) = [l] := by
  unfold splitLines
  rw [splitLinesAux_single_line h1]
  simp [dropCR_eq_self h2]


theorem splitLinesAux_nil_eq (acc : Str) :
    splitLinesAux acc [] = if acc.isEmpty then [] else [dropCR acc.reverse] := rfl

theorem splitLinesAux_cons_eq (acc : Str) (c : Char) (rest : Str) :
    splitLinesAux acc (c :: rest) =
      if c = '\n' then dropCR acc.reverse :: splitLinesAux [] rest
      else splitLinesAux (c :: acc) rest := rfl

theorem splitLinesAux_append_nl_no_nl_end {s : Str} (h1 : s ≠ []) (h2 : s.getLast? ≠ some '\n') :
    ∀ acc, splitLinesAux acc (s ++ ['\n']) = splitLinesAux acc s := by
  induction s with
  | nil => exact absurd rfl h1
  | cons c s ih =>
    intro acc
    cases s with
    | nil =>
      have hc : c ≠ '\n' := by simpa using h2
      simp [splitLinesAux, hc]
    | cons d s' =>
      have h2' : (d :: s').getLast? ≠ some '\n' := by
        rwa [List.getLast?_cons_cons] at h2
      have ihh := ih (List.cons_ne_nil d s') h2'
      have lhs : splitLinesAux acc ((c :: d :: s') ++ ['\n']) =
          if c = '\n' then dropCR acc.reverse :: splitLinesAux [] ((d :: s') ++ ['\n'])
          else splitLinesAux (c :: acc) ((d :: s') ++ ['\n']) := rfl
      have rhs : splitLinesAux acc (c :: d :: s') =
          if c = '\n' then dropCR acc.reverse :: splitLinesAux [] (d :: s')
          else splitLinesAux (c :: acc) (d :: s') := rfl
      rw [lhs, rhs, ihh [], ihh (c :: acc)]

theorem splitLines_append_nl_no_nl_end {s : Str} (h1 : s ≠ []) (h2 : s.getLast? ≠ some '\n') :
    splitLines (s ++ ['\n']) = splitLines s :=
  splitLinesAux_append_nl_no_nl_end h1 h2 []

theorem dropCR_prefix_self (l : Str) : dropCR l <+: l := by
  unfold dropCR
  by_cases h : hasSuffixB (toL "\r") l = true
  · rw [if_pos h]; exact List.take_prefix _ l
  · rw [if_neg h]

theorem mem_splitLinesAux_occurs :
    ∀ (s acc l : Str), l ∈ splitLinesAux acc s → l <:+: (acc.reverse ++ s) := by
  intro s
  induction s with
  | nil =>
    intro acc l h
    rw [splitLinesAux_nil_eq] at h
    by_cases hacc : acc.isEmpty
    · rw [if_pos hacc] at h
      exact absurd h (List.not_mem_nil l)
    · rw [if_neg hacc, List.mem_singleton] at h
      subst h
      exact ((dropCR_prefix_self acc.reverse).trans ( List.prefix_append _ _)).isInfix
  | cons c rest ih =>
    intro acc l h
    by_cases hc : c = '\n'
    · subst hc
      rw [splitLinesAux_cons_eq, if_pos rfl, List.mem_cons] at h
      rcases h with h | h
      · subst h
        exact ((dropCR_prefix_self acc.reverse).trans ( List.prefix_append _ _)).isInfix
      · have h' := ih [] l h
        simp only [List.reverse_nil, List.nil_append] at h'
        exact h'.trans ((List.suffix_cons '\n' rest).trans
          (List.suffix_append acc.reverse ('\n' :: rest))).isInfix
    · rw [splitLinesAux_cons_eq, if_neg hc] at h
      have h' := ih (c :: acc) l h
      rwa [List.reverse_cons, List.append_assoc, List.singleton_append] at h'

theorem mem_splitLines_occurs {s l : Str} (h : l ∈ splitLines s) : l <:+: s := by
  have h' := mem_splitLinesAux_occurs s [] l h
  simpa using h'

/-! ## Supporting lemmas: trimming and substring containment -/

theorem reversed_dropWhile_prefix_self (p : Char → Bool) (m : Str) :
    (m.reverse.dropWhile p).reverse <+: m := by
  have h : m.reverse.dropWhile p <:+ m.reverse := List.dropWhile_suffix p
  have h2 : (m.reverse.dropWhile p).reverse.reverse <:+ m.reverse := by
    rwa [List.reverse_reverse]
  exact List.reverse_suffix.mp h2

theorem trimSpace_occurs (l : Str) : trimSpace l <:+: l := by
  unfold trimSpace
  exact (reversed_dropWhile_prefix_self goIsSpace (l.dropWhile goIsSpace)).isInfix.trans
    (List.dropWhile_suffix goIsSpace).isInfix

theorem containsSub_iff_occurs {sep s : Str} : containsSub sep s = true ↔ sep <:+: s := by
  unfold containsSub
  induction s with
  | nil =>
    by_cases h : List.isPrefixOf sep ([] : Str)
    · have hs : sep = [] := List.prefix_nil.mp ( List.isPrefixOf_iff_prefix.mp h)
      simp [breakOnSub, h, hs]
    · have hs : sep ≠ [] := by
        intro he
        exact h (by simp [he, List.isPrefixOf])
      simp [breakOnSub, h, hs]
  | cons c rest ih =>
    by_cases h : List.isPrefixOf sep (c :: rest)
    · simp only [breakOnSub, if_pos h, Option.isSome_some, true_iff]
      exact ( List.isPrefixOf_iff_prefix.mp h).isInfix
    · simp only [breakOnSub, if_neg h]
      have hmap : (Option.map (fun pq => (c :: pq.1, pq.2)) (breakOnSub sep rest)).isSome
          = (breakOnSub sep rest).isSome := by
        cases breakOnSub sep rest <;> rfl
      rw [hmap, ih, List.infix_cons_iff]
      have hnp : ¬ sep <+: c :: rest := fun hp => h ( List.isPrefixOf_iff_prefix.mpr hp)
      tauto

theorem hasSection_of_line {C n l : Str} (hl : l ∈ splitLines C)
    (ht : trimSpace l = Gitignore.startMarker n) : Gitignore.HasSection C n = true := by
  unfold Gitignore.HasSection
  rw [containsSub_iff_occurs]
  exact (ht ▸ trimSpace_occurs l).trans (mem_splitLines_occurs hl)

theorem trimSpace_fixpoint_last {s : Str} {c : Char} (hfix : trimSpace s = s)
    (hlast : s.getLast? = some c) : goIsSpace c = false := by
  have hrev : s.reverse.head? = some c := by rwa [List.head?_reverse]
  cases hsr : s.reverse with
  | nil => rw [hsr] at hrev; exact Option.noConfusion hrev
  | cons d tail =>
    have hdc : d = c := by
      rw [hsr] at hrev
      simpa using hrev
    subst hdc
    have h1 : ((s.dropWhile goIsSpace).reverse.dropWhile goIsSpace).reverse = s := hfix
    have h2 : (s.dropWhile goIsSpace).reverse.dropWhile goIsSpace = s.reverse := by
      have h3 := congrArg List.reverse h1
      rwa [List.reverse_reverse] at h3
    rw [hsr] at h2
    exact dropWhile_head_false goIsSpace _ h2

/-! ## Supporting lemmas: markers -/

theorem sectionStartText_eq :
    Gitignore.SectionStartText = ['#', '#', '#', ' ', 'S', 'T', 'A', 'R', 'T', ':'] := rfl

theorem sectionEndText_eq :
    Gitignore.SectionEndText = ['#', '#', '#', ' ', 'E', 'N', 'D', ':'] := rfl

theorem startMarker_ne_endMarker (n m : Str) : Gitignore.startMarker n ≠ Gitignore.endMarker m := by
  simp [Gitignore.startMarker, Gitignore.endMarker, sectionStartText_eq, sectionEndText_eq]

theorem nl_not_mem_startMarker {n : Str} (h : '\n' ∉ n) : '\n' ∉ Gitignore.startMarker n := by
  intro hmem
  rcases List.mem_append.mp hmem with hm | hm
  · rw [sectionStartText_eq] at hm
    simp at hm
  · rcases List.mem_cons.mp hm with hm | hm
    · exact absurd hm (by decide)
    · exact h hm

theorem nl_not_mem_endMarker {n : Str} (h : '\n' ∉ n) : '\n' ∉ Gitignore.endMarker n := by
  intro hmem
  rcases List.mem_append.mp hmem with hm | hm
  · rw [sectionEndText_eq] at hm
    simp at hm
  · rcases List.mem_cons.mp hm with hm | hm
    · exact absurd hm (by decide)
    · exact h hm

theorem fixpoint_last_not_cr {s : Str} (hfix : trimSpace s = s) : s.getLast? ≠ some '\r' := by
  intro h
  have h2 := trimSpace_fixpoint_last hfix h
  have h3 : goIsSpace '\r' = true := by decide
  rw [h2] at h3
  exact Bool.noConfusion h3

theorem fixpoint_last_not_nl {s : Str} (hfix : trimSpace s = s) : s.getLast? ≠ some '\n' := by
  intro h
  have h2 := trimSpace_fixpoint_last hfix h
  have h3 : goIsSpace '\n' = true := by decide
  rw [h2] at h3
  exact Bool.noConfusion h3

/-! ## Supporting lemmas: the Delete scan loop -/

theorem deleteLoop_cons_eq (sm em l : Str) (ls : List Str) (inSec prev : Bool) :
    Gitignore.deleteLoop sm em (l :: ls) inSec prev =
      if trimSpace l = sm then ((Gitignore.deleteLoop sm em ls true prev).1, true)
      else if trimSpace l = em then Gitignore.deleteLoop sm em ls false prev
      else if inSec then Gitignore.deleteLoop sm em ls true prev
      else if trimSpace l = [] then
        if prev then Gitignore.deleteLoop sm em ls false prev
        else (l :: (Gitignore.deleteLoop sm em ls false true).1,
          (Gitignore.deleteLoop sm em ls false true).2)
      else (l :: (Gitignore.deleteLoop sm em ls false false).1,
        (Gitignore.deleteLoop sm em ls false false).2) := rfl

theorem isBlank_iff {l : Str} : isBlank l = true ↔ trimSpace l = [] := by
  unfold isBlank
  exact List.isEmpty_iff

theorem deleteLoop_skip {sm em : Str} {mid : List Str} (h : ∀ l ∈ mid, trimSpace l ≠ em) :
    ∀ rest prev,
      (Gitignore.deleteLoop sm em (mid ++ rest) true prev).1 =
        (Gitignore.deleteLoop sm em rest true prev).1 := by
  induction mid with
  | nil => intro rest prev; rfl
  | cons l mid ih =>
    intro rest prev
    have hlem : trimSpace l ≠ em := h l (List.mem_cons_self l mid)
    have hmid : ∀ x ∈ mid, trimSpace x ≠ em := fun x hx => h x (List.mem_cons_of_mem l hx)
    rw [List.cons_append, deleteLoop_cons_eq]
    by_cases hsm : trimSpace l = sm
    · rw [if_pos hsm]
      exact ih hmid rest prev
    · rw [if_neg hsm, if_neg hlem, if_pos rfl]
      exact ih hmid rest prev

theorem deleteLoop_outside {sm em : Str} {ls : List Str}
    (h : ∀ l ∈ ls, trimSpace l ≠ sm ∧ trimSpace l ≠ em) :
    ∀ prev, Gitignore.deleteLoop sm em ls false prev = (collapseBlankAux prev ls, false) := by
  induction ls with
  | nil => intro prev; rfl
  | cons l ls ih =>
    intro prev
    have hl := h l (List.mem_cons_self l ls)
    have hls : ∀ x ∈ ls, trimSpace x ≠ sm ∧ trimSpace x ≠ em :=
      fun x hx => h x (List.mem_cons_of_mem l hx)
    rw [deleteLoop_cons_eq, if_neg hl.1, if_neg hl.2, if_neg (Bool.false_ne_true)]
    by_cases hb : trimSpace l = []
    · rw [if_pos hb]
      have hbl : isBlank l = true := isBlank_iff.mpr hb
      cases prev with
      | true =>
        rw [if_pos rfl, ih hls true]
        simp [collapseBlankAux, hbl]
      | false =>
        rw [if_neg (Bool.false_ne_true), ih hls true]
        simp [collapseBlankAux, hbl]
    · rw [if_neg hb, ih hls false]
      have hbl : isBlank l = false := by
        rw [Bool.eq_false_iff]
        intro hc
        exact hb (isBlank_iff.mp hc)
      simp [collapseBlankAux, hbl]

theorem blankStateAfter_cons (prev : Bool) (l : Str) (ls : List Str) :
    blankStateAfter prev (l :: ls) = blankStateAfter (isBlank l) ls := rfl

theorem deleteLoop_main {sm em : Str} {pre mid post : List Str}
    (hpre : ∀ l ∈ pre, trimSpace l ≠ sm ∧ trimSpace l ≠ em)
    (hpost : ∀ l ∈ post, trimSpace l ≠ sm ∧ trimSpace l ≠ em)
    (hmid : ∀ l ∈ mid, trimSpace l ≠ em)
    (hsm : trimSpace sm = sm) (hem : trimSpace em = em) (hne : sm ≠ em) :
    ∀ prev, Gitignore.deleteLoop sm em (pre ++ sm :: (mid ++ em :: post)) false prev
      = (collapseBlankAux prev pre ++ collapseBlankAux (blankStateAfter prev pre) post, true) := by
  induction pre with
  | nil =>
    intro prev
    rw [List.nil_append, deleteLoop_cons_eq, if_pos hsm]
    rw [deleteLoop_skip hmid (em :: post) prev]
    have hemsm : trimSpace em ≠ sm := by rw [hem]; exact fun hc => hne hc.symm
    rw [deleteLoop_cons_eq, if_neg hemsm, if_pos hem]
    rw [deleteLoop_outside hpost prev]
    simp [collapseBlankAux, blankStateAfter]
  | cons l pre ih =>
    intro prev
    have hl := hpre l (List.mem_cons_self l pre)
    have hpre' : ∀ x ∈ pre, trimSpace x ≠ sm ∧ trimSpace x ≠ em :=
      fun x hx => hpre x (List.mem_cons_of_mem l hx)
    rw [List.cons_append, deleteLoop_cons_eq, if_neg hl.1, if_neg hl.2,
      if_neg (Bool.false_ne_true)]
    by_cases hb : trimSpace l = []
    · have hbl : isBlank l = true := isBlank_iff.mpr hb
      rw [if_pos hb]
      cases prev with
      | true =>
        rw [if_pos rfl, ih hpre' true]
        simp [collapseBlankAux, hbl, blankStateAfter_cons]
      | false =>
        rw [if_neg (Bool.false_ne_true), ih hpre' true]
        simp [collapseBlankAux, hbl, blankStateAfter_cons]
    · have hbl : isBlank l = false := by
        rw [Bool.eq_false_iff]
        intro hc
        exact hb (isBlank_iff.mp hc)
      rw [if_neg hb, ih hpre' false]
      simp [collapseBlankAux, hbl, blankStateAfter_cons]

/-! ## Supporting lemmas: blank-run collapsing and the final rewrite -/

theorem collapseBlankAux_append (a b : List Str) :
    ∀ prev, collapseBlankAux prev (a ++ b)
      = collapseBlankAux prev a ++ collapseBlankAux (blankStateAfter prev a) b := by
  induction a with
  | nil => intro prev; rfl
  | cons l a ih =>
    intro prev
    by_cases hb : isBlank l = true
    · cases prev <;> simp [collapseBlankAux, hb, ih, blankStateAfter_cons]
    · simp only [Bool.not_eq_true] at hb
      simp [collapseBlankAux, hb, ih, blankStateAfter_cons]

theorem joinLines_nil : joinLines [] = [] := rfl

theorem joinLines_cons (l : Str) (ls : List Str) :
    joinLines (l :: ls) = l ++ '\n' :: joinLines ls := by
  simp [joinLines]

theorem joinLines_append (a b : List Str) : joinLines (a ++ b) = joinLines a ++ joinLines b := by
  simp [joinLines]

theorem splitLines_joinLines {L : List Str}
    (h : ∀ l ∈ L, '\n' ∉ l ∧ l.getLast? ≠ some '\r') : splitLines (joinLines L) = L := by
  induction L with
  | nil => rfl
  | cons l L ih =>
    have hl := h l (List.mem_cons_self l L)
    have hL : ∀ x ∈ L, '\n' ∉ x ∧ x.getLast? ≠ some '\r' :=
      fun x hx => h x (List.mem_cons_of_mem l hx)
    rw [joinLines_cons, splitLines_append_nl, splitLines_single_line hl.1 hl.2, ih hL,
      List.singleton_append]

theorem trimRightCut_concat {cut : Str} {c : Char} (h : cut.contains c = true) (s : Str) :
    trimRightCut cut (s ++ [c]) = trimRightCut cut s := by
  unfold trimRightCut
  rw [List.reverse_append]
  simp only [List.reverse_singleton, List.singleton_append, List.dropWhile_cons, h, if_true]

theorem finalizeContent_concat_blank (X : List Str) :
    finalizeContent (X ++ [[]]) = finalizeContent X := by
  unfold finalizeContent
  rw [joinLines_append]
  have h1 : joinLines [[]] = ['\n'] := rfl
  have h2 : (toL "\n\t ").contains '\n' = true := by decide
  rw [h1, trimRightCut_concat h2]

theorem Delete_of_split {n content : Str} {pre mid post : List Str}
    (hC : content ≠ [])
    (hsplit : splitLines content
      = pre ++ Gitignore.startMarker n :: (mid ++ Gitignore.endMarker n :: post))
    (hpre : ∀ l ∈ pre, trimSpace l ≠ Gitignore.startMarker n ∧ trimSpace l ≠ Gitignore.endMarker n)
    (hpost : ∀ l ∈ post, trimSpace l ≠ Gitignore.startMarker n ∧ trimSpace l ≠ Gitignore.endMarker n)
    (hmid : ∀ l ∈ mid, trimSpace l ≠ Gitignore.endMarker n)
    (hsm : trimSpace (Gitignore.startMarker n) = Gitignore.startMarker n)
    (hem : trimSpace (Gitignore.endMarker n) = Gitignore.endMarker n) :
    Gitignore.Delete content n = .ok (finalizeContent (collapseBlankRuns (pre ++ post))) := by
  have key : Gitignore.deleteLoop (Gitignore.startMarker n) (Gitignore.endMarker n)
      (splitLines content) false false = (collapseBlankRuns (pre ++ post), true) := by
    rw [hsplit, deleteLoop_main hpre hpost hmid hsm hem (startMarker_ne_endMarker n n) false,
      collapseBlankRuns, collapseBlankAux_append]
  unfold Gitignore.Delete
  rw [if_neg hC, key]
  simp [finalizeContent]

theorem infix_append_left {l x : Str} (y : Str) (h : l <:+: x) : l <:+: x ++ y :=
  h.trans ( List.prefix_append x y).isInfix

theorem infix_append_right (x : Str) {l y : Str} (h : l <:+: y) : l <:+: x ++ y :=
  h.trans (List.suffix_append x y).isInfix

theorem joinLines_ne_nil {L : List Str} (h : L ≠ []) : joinLines L ≠ [] := by
  cases L with
  | nil => exact absurd rfl h
  | cons l ls =>
    rw [joinLines_cons]
    intro hc
    have := List.append_eq_nil.mp hc
    exact List.noConfusion this.2

theorem deleteLoop_found {sm em : Str} {ls : List Str} :
    ∀ inSec prev, (Gitignore.deleteLoop sm em ls inSec prev).2 = true →
      ∃ l ∈ ls, trimSpace l = sm := by
  induction ls with
  | nil => intro inSec prev h; exact absurd h (by simp [Gitignore.deleteLoop])
  | cons l ls ih =>
    intro inSec prev h
    rw [deleteLoop_cons_eq] at h
    by_cases h1 : trimSpace l = sm
    · exact ⟨l, List.mem_cons_self l ls, h1⟩
    · rw [if_neg h1] at h
      by_cases h2 : trimSpace l = em
      · rw [if_pos h2] at h
        obtain ⟨x, hx, hxt⟩ := ih false prev h
        exact ⟨x, List.mem_cons_of_mem l hx, hxt⟩
      · rw [if_neg h2] at h
        by_cases h3 : inSec = true
        · rw [if_pos h3] at h
          obtain ⟨x, hx, hxt⟩ := ih true prev h
          exact ⟨x, List.mem_cons_of_mem l hx, hxt⟩
        · rw [if_neg h3] at h
          by_cases h4 : trimSpace l = []
          · rw [if_pos h4] at h
            by_cases h5 : prev = true
            · rw [if_pos h5] at h
              obtain ⟨x, hx, hxt⟩ := ih false prev h
              exact ⟨x, List.mem_cons_of_mem l hx, hxt⟩
            · rw [if_neg h5] at h
              obtain ⟨x, hx, hxt⟩ := ih false true h
              exact ⟨x, List.mem_cons_of_mem l hx, hxt⟩
          · rw [if_neg h4] at h
            obtain ⟨x, hx, hxt⟩ := ih false false h
            exact ⟨x, List.mem_cons_of_mem l hx, hxt⟩

/-! ## Claim theorems -/

/-- C2 (amended): deleting a section removes the lines from the start marker line
through the end marker line inclusive; the retained lines are preserved verbatim,
except that every run of two or more consecutive blank lines among the retained
lines (also inside other sections' marker pairs) is collapsed to one blank line,
trailing space/tab/newline characters are trimmed, and the result ends with exactly
one trailing newline or is fully empty. -/
theorem delete_removes_section (n : Str) (pre mid post : List Str)
    (hn : '\n' ∉ n)
    (hsm : trimSpace (Gitignore.startMarker n) = Gitignore.startMarker n)
    (hem : trimSpace (Gitignore.endMarker n) = Gitignore.endMarker n)
    (hgood : ∀ l ∈ pre ++ mid ++ post, '\n' ∉ l ∧ l.getLast? ≠ some '\r')
    (hpre : ∀ l ∈ pre, trimSpace l ≠ Gitignore.startMarker n ∧ trimSpace l ≠ Gitignore.endMarker n)
    (hpost : ∀ l ∈ post, trimSpace l ≠ Gitignore.startMarker n ∧ trimSpace l ≠ Gitignore.endMarker n)
    (hmid : ∀ l ∈ mid, trimSpace l ≠ Gitignore.endMarker n) :
    Gitignore.Delete
        (joinLines (pre ++ Gitignore.startMarker n :: (mid ++ Gitignore.endMarker n :: post))) n
      = .ok (finalizeContent (collapseBlankRuns (pre ++ post))) := by
  have hLne : pre ++ Gitignore.startMarker n :: (mid ++ Gitignore.endMarker n :: post) ≠ [] := by
    intro hc
    have := List.append_eq_nil.mp hc
    exact List.noConfusion this.2
  have hCne := joinLines_ne_nil hLne
  have hsplit : splitLines
      (joinLines (pre ++ Gitignore.startMarker n :: (mid ++ Gitignore.endMarker n :: post)))
      = pre ++ Gitignore.startMarker n :: (mid ++ Gitignore.endMarker n :: post) := by
    apply splitLines_joinLines
    intro l hl
    rcases List.mem_append.mp hl with hl | hl
    · exact hgood l (List.mem_append_left _ (List.mem_append_left _ hl))
    · rcases List.mem_cons.mp hl with hl | hl
      · subst hl
        exact ⟨nl_not_mem_startMarker hn, fixpoint_last_not_cr hsm⟩
      · rcases List.mem_append.mp hl with hl | hl
        · exact hgood l (List.mem_append_left _ (List.mem_append_right _ hl))
        · rcases List.mem_cons.mp hl with hl | hl
          · subst hl
            exact ⟨nl_not_mem_endMarker hn, fixpoint_last_not_cr hem⟩
          · exact hgood l (List.mem_append_right _ hl)
  exact Delete_of_split hCne hsplit hpre hpost hmid hsm hem

/-- Witness for `delete_removes_section` at a concrete file. -/
theorem delete_removes_section_witness :
    Gitignore.Delete
        (joinLines ([toL "a", []] ++ Gitignore.startMarker (toL "Go") ::
          ([toL "*.exe"] ++ Gitignore.endMarker (toL "Go") :: [toL "b"]))) (toL "Go")
      = .ok (finalizeContent (collapseBlankRuns ([toL "a", []] ++ [toL "b"]))) :=
  delete_removes_section (toL "Go") [toL "a", []] [toL "*.exe"] [toL "b"]
    (by decide) (by decide) (by decide) (by decide) (by decide) (by decide) (by decide)

/-- Counterexample to C2 as stated: deleting section `B` also collapses the blank
run that lies inside section `A`'s markers, although the claim restricts collapsing
to blank-line runs outside any section (so the lines of section `A` are not
preserved verbatim). -/
theorem delete_counterexample :
    Gitignore.Delete
        (toL "### START: A\nx\n\n\ny\n### END: A\n### START: B\nz\n### END: B\n") (toL "B")
      = .ok (toL "### START: A\nx\n\ny\n### END: A\n")
    ∧ toL "### START: A\nx\n\ny\n### END: A\n"
        ≠ toL "### START: A\nx\n\n\ny\n### END: A\n" :=
  ⟨by decide, by decide⟩

/-- C5: deleting a section whose start marker is not found (including the empty /
absent file) returns a "section not found" error, and no content is written back
(the operation's only output is the error). -/
theorem delete_not_found (content n : Str)
    (h : content = [] ∨ ∀ l ∈ splitLines content, trimSpace l ≠ Gitignore.startMarker n) :
    Gitignore.Delete content n = .error (Gitignore.errNotFound n) := by
  by_cases hC : content = []
  · simp [Gitignore.Delete, hC]
  · rcases h with h | h
    · exact absurd h hC
    · have hf : (Gitignore.deleteLoop (Gitignore.startMarker n) (Gitignore.endMarker n)
          (splitLines content) false false).2 = false := by
        cases hval : (Gitignore.deleteLoop (Gitignore.startMarker n) (Gitignore.endMarker n)
            (splitLines content) false false).2 with
        | false => rfl
        | true =>
          obtain ⟨l, hl, hlt⟩ := deleteLoop_found false false hval
          exact absurd hlt (h l hl)
      unfold Gitignore.Delete
      rw [if_neg hC]
      simp [hf]

/-- Witness for `delete_not_found`: a file with content but no `Go` section. -/
theorem delete_not_found_witness :
    Gitignore.Delete (toL "*.log\n") (toL "Go") = .error (Gitignore.errNotFound (toL "Go")) :=
  delete_not_found (toL "*.log\n") (toL "Go") (Or.inr (by decide))

/-- C6: after a successful `Add(n, c1)`, `HasSection n` is true, and a second
`Add(n, c2)` returns the "section already exists" error (so no content is written
back by the second call). -/
theorem add_then_has_then_duplicate (content n c1 c2 A : Str)
    (h : Gitignore.Add content n c1 = .ok A) :
    Gitignore.HasSection A n = true
      ∧ Gitignore.Add A n c2 = .error (Gitignore.errAlreadyExists n) := by
  have hs : ¬ Gitignore.HasSection content n = true := by
    intro hs
    rw [Gitignore.Add, if_pos hs] at h
    exact Except.noConfusion h
  rw [Gitignore.Add, if_neg hs] at h
  simp only [Except.ok.injEq] at h
  have hhas : Gitignore.HasSection A n = true := by
    rw [← h]
    unfold Gitignore.HasSection
    rw [containsSub_iff_occurs]
    exact infix_append_left _ (infix_append_left _ (infix_append_left _
      (infix_append_left _ (infix_append_left _ ((List.suffix_append _ _).isInfix)))))
  refine ⟨hhas, ?_⟩
  rw [Gitignore.Add, if_pos hhas]

/-- Witness for `add_then_has_then_duplicate`: adding `Go` to an empty file. -/
theorem add_then_has_then_duplicate_witness :
    Gitignore.HasSection (toL "### START: Go\n*.exe\n### END: Go\n") (toL "Go") = true
      ∧ Gitignore.Add (toL "### START: Go\n*.exe\n### END: Go\n") (toL "Go") (toL "y")
        = .error (Gitignore.errAlreadyExists (toL "Go")) :=
  add_then_has_then_duplicate [] (toL "Go") (toL "*.exe") (toL "y")
    (toL "### START: Go\n*.exe\n### END: Go\n") (by decide)

theorem splitLines_cons_nl (X : Str) : splitLines ('\n' :: X) = [] :: splitLines X := rfl

theorem trimSpace_getLast_not_space {c : Str} {ch : Char}
    (h : (trimSpace c).getLast? = some ch) : goIsSpace ch = false := by
  unfold trimSpace at h
  rw [List.getLast?_reverse] at h
  cases hd : (c.dropWhile goIsSpace).reverse.dropWhile goIsSpace with
  | nil => rw [hd] at h; exact Option.noConfusion h
  | cons a t =>
    rw [hd] at h
    simp only [List.head?_cons, Option.some.injEq] at h
    subst h
    exact dropWhile_head_false goIsSpace _ hd

theorem trimSpace_getLast_not_nl {c : Str} : (trimSpace c).getLast? ≠ some '\n' := by
  intro h
  have h2 := trimSpace_getLast_not_space h
  have h3 : goIsSpace '\n' = true := by decide
  rw [h2] at h3
  exact Bool.noConfusion h3

theorem startMarker_ne_nil (n : Str) : Gitignore.startMarker n ≠ [] := by
  simp [Gitignore.startMarker, sectionStartText_eq]

theorem endMarker_ne_nil (n : Str) : Gitignore.endMarker n ≠ [] := by
  simp [Gitignore.endMarker, sectionEndText_eq]

theorem splitLines_sep {C REST : Str} (hC : C ≠ []) :
    splitLines (C ++ ((if hasSuffixB (toL "\n") C then [] else ['\n']) ++ ('\n' :: REST)))
      = splitLines C ++ [] :: splitLines REST := by
  by_cases hnl : hasSuffixB (toL "\n") C = true
  · rw [if_pos hnl, List.nil_append]
    have hlast : C.getLast? = some '\n' := hasSuffixB_nl_iff.mp hnl
    obtain ⟨C1, hC1⟩ := List.getLast?_eq_some_iff.mp hlast
    subst hC1
    rw [List.append_assoc, List.singleton_append, splitLines_append_nl,
      splitLines_append_nl, splitLines_cons_nl]
  · rw [if_neg hnl, List.singleton_append]
    have hlast : C.getLast? ≠ some '\n' := by
      intro hx
      exact hnl (hasSuffixB_nl_iff.mpr hx)
    rw [splitLines_append_nl, splitLines_append_nl_no_nl_end hC hlast, splitLines_cons_nl]

theorem trimSpace_nil : trimSpace ([] : Str) = [] := rfl

/-- C1 (amended): when the start marker does not already occur in `C` (the code's
duplicate test is substring containment), no line of `C` or of the trimmed content
trims to the end marker line, the name contains no newline and neither marker line
carries surrounding whitespace, then `Add(n, content)` followed by `Delete(n)`
returns `C` with every run of two or more blank lines collapsed to one, trailing
whitespace trimmed (ending in exactly one newline, or empty), and CR-LF line ends
normalized to LF. -/
theorem add_delete_roundtrip (C n c : Str)
    (h1 : Gitignore.HasSection C n = false)
    (h2 : ∀ l ∈ splitLines C, trimSpace l ≠ Gitignore.endMarker n)
    (h3 : ∀ l ∈ splitLines (trimSpace c), trimSpace l ≠ Gitignore.endMarker n)
    (hn : '\n' ∉ n)
    (hsm : trimSpace (Gitignore.startMarker n) = Gitignore.startMarker n)
    (hem : trimSpace (Gitignore.endMarker n) = Gitignore.endMarker n) :
    (Gitignore.Add C n c).bind (fun A => Gitignore.Delete A n)
      = .ok (finalizeContent (collapseBlankRuns (splitLines C))) := by
  have hs : ¬ Gitignore.HasSection C n = true := by rw [h1]; exact Bool.false_ne_true
  have hsmgood : '\n' ∉ Gitignore.startMarker n := nl_not_mem_startMarker hn
  have hsmcr := fixpoint_last_not_cr hsm
  have hemgood : '\n' ∉ Gitignore.endMarker n := nl_not_mem_endMarker hn
  have hemcr := fixpoint_last_not_cr hem
  have hsufc' : ¬ hasSuffixB (toL "\n") (trimSpace c) = true := by
    intro hx
    exact trimSpace_getLast_not_nl (hasSuffixB_nl_iff.mp hx)
  have hpreC : ∀ l ∈ splitLines C,
      trimSpace l ≠ Gitignore.startMarker n ∧ trimSpace l ≠ Gitignore.endMarker n := by
    intro l hl
    refine ⟨?_, h2 l hl⟩
    intro hx
    rw [hasSection_of_line hl hx] at h1
    exact Bool.noConfusion h1
  have hPRE : ∀ l ∈ splitLines C ++ [([] : Str)],
      trimSpace l ≠ Gitignore.startMarker n ∧ trimSpace l ≠ Gitignore.endMarker n := by
    intro l hl
    rcases List.mem_append.mp hl with hl | hl
    · exact hpreC l hl
    · rw [List.mem_singleton] at hl
      subst hl
      rw [trimSpace_nil]
      exact ⟨fun hx => startMarker_ne_nil n hx.symm, fun hx => endMarker_ne_nil n hx.symm⟩
  have hnilmem : ∀ l ∈ ([] : List Str),
      trimSpace l ≠ Gitignore.startMarker n ∧ trimSpace l ≠ Gitignore.endMarker n := by
    intro l hl
    exact absurd hl (List.not_mem_nil l)
  have hmidblank : ∀ l ∈ [([] : Str)], trimSpace l ≠ Gitignore.endMarker n := by
    intro l hl
    rw [List.mem_singleton] at hl
    subst hl
    rw [trimSpace_nil]
    exact fun hx => endMarker_ne_nil n hx.symm
  have hfin : finalizeContent (collapseBlankRuns (splitLines C ++ [([] : Str)] ++ []))
      = finalizeContent (collapseBlankRuns (splitLines C)) := by
    rw [List.append_nil, collapseBlankRuns, collapseBlankAux_append]
    have hcb : collapseBlankAux (blankStateAfter false (splitLines C)) [([] : Str)]
        = if blankStateAfter false (splitLines C) then [] else [[]] := by
      cases blankStateAfter false (splitLines C) <;>
        simp [collapseBlankAux, isBlank, trimSpace_nil]
    rw [hcb]
    cases blankStateAfter false (splitLines C) with
    | true => rw [if_pos rfl, List.append_nil]; rfl
    | false => rw [if_neg Bool.false_ne_true]; exact finalizeContent_concat_blank _
  rw [Gitignore.Add, if_neg hs]
  simp only [Except.bind]
  rw [if_neg hsufc']
  by_cases hC : C = []
  · subst hC
    rw [if_pos rfl]
    simp only [List.nil_append, List.append_assoc, List.singleton_append, List.cons_append]
    by_cases hc' : trimSpace c = []
    · rw [hc']
      simp only [List.nil_append]
      have hsplit : splitLines (Gitignore.startMarker n ++
          '\n' :: ('\n' :: (Gitignore.endMarker n ++ ['\n'])))
          = [] ++ Gitignore.startMarker n :: ([[]] ++ Gitignore.endMarker n :: []) := by
        rw [splitLines_append_nl, splitLines_single_line hsmgood hsmcr, splitLines_cons_nl,
          splitLines_single_line hemgood hemcr]
        simp
      have hne : Gitignore.startMarker n ++
          '\n' :: ('\n' :: (Gitignore.endMarker n ++ ['\n'])) ≠ [] := by
        simp [Gitignore.startMarker, sectionStartText_eq]
      rw [Delete_of_split hne hsplit hnilmem hnilmem hmidblank hsm hem]
      rfl
    · have hsplit : splitLines (Gitignore.startMarker n ++
          '\n' :: (trimSpace c ++ '\n' :: (Gitignore.endMarker n ++ ['\n'])))
          = [] ++ Gitignore.startMarker n :: (splitLines (trimSpace c) ++
            Gitignore.endMarker n :: []) := by
        rw [splitLines_append_nl, splitLines_single_line hsmgood hsmcr,
          splitLines_append_nl, splitLines_append_nl_no_nl_end hc' trimSpace_getLast_not_nl,
          splitLines_single_line hemgood hemcr]
        simp
      have hne : Gitignore.startMarker n ++
          '\n' :: (trimSpace c ++ '\n' :: (Gitignore.endMarker n ++ ['\n'])) ≠ [] := by
        simp [Gitignore.startMarker, sectionStartText_eq]
      rw [Delete_of_split hne hsplit hnilmem hnilmem h3 hsm hem]
      rfl
  · rw [if_neg hC]
    simp only [List.append_assoc, List.singleton_append, List.cons_append, List.nil_append]
    by_cases hc' : trimSpace c = []
    · rw [hc']
      simp only [List.nil_append]
      have hsplit : splitLines (C ++ ((if hasSuffixB (toL "\n") C then [] else ['\n']) ++
          ('\n' :: (Gitignore.startMarker n ++
            '\n' :: ('\n' :: (Gitignore.endMarker n ++ ['\n']))))))
          = (splitLines C ++ [([] : Str)]) ++ Gitignore.startMarker n ::
            ([[]] ++ Gitignore.endMarker n :: []) := by
        rw [splitLines_sep hC, splitLines_append_nl, splitLines_single_line hsmgood hsmcr,
          splitLines_cons_nl, splitLines_single_line hemgood hemcr]
        simp
      have hne : C ++ ((if hasSuffixB (toL "\n") C then [] else ['\n']) ++
          ('\n' :: (Gitignore.startMarker n ++
            '\n' :: ('\n' :: (Gitignore.endMarker n ++ ['\n']))))) ≠ [] := by
        intro hx
        exact hC (List.append_eq_nil.mp hx).1
      rw [Delete_of_split hne hsplit hPRE hnilmem hmidblank hsm hem]
      rw [hfin]
    · have hsplit : splitLines (C ++ ((if hasSuffixB (toL "\n") C then [] else ['\n']) ++
          ('\n' :: (Gitignore.startMarker n ++
            '\n' :: (trimSpace c ++ '\n' :: (Gitignore.endMarker n ++ ['\n']))))))
          = (splitLines C ++ [([] : Str)]) ++ Gitignore.startMarker n ::
            (splitLines (trimSpace c) ++ Gitignore.endMarker n :: []) := by
        rw [splitLines_sep hC, splitLines_append_nl, splitLines_single_line hsmgood hsmcr,
          splitLines_append_nl, splitLines_append_nl_no_nl_end hc' trimSpace_getLast_not_nl,
          splitLines_single_line hemgood hemcr]
        simp
      have hne : C ++ ((if hasSuffixB (toL "\n") C then [] else ['\n']) ++
          ('\n' :: (Gitignore.startMarker n ++
            '\n' :: (trimSpace c ++ '\n' :: (Gitignore.endMarker n ++ ['\n']))))) ≠ [] := by
        intro hx
        exact hC (List.append_eq_nil.mp hx).1
      rw [Delete_of_split hne hsplit hPRE hnilmem h3 hsm hem]
      rw [hfin]

/-- Witness for `add_delete_roundtrip`: a file whose blank run gets collapsed. -/
theorem add_delete_roundtrip_witness :
    (Gitignore.Add (toL "a\n\n\nb") (toL "Go") (toL "*.exe\nbin/\n")).bind
        (fun A => Gitignore.Delete A (toL "Go"))
      = .ok (finalizeContent (collapseBlankRuns (splitLines (toL "a\n\n\nb")))) :=
  add_delete_roundtrip (toL "a\n\n\nb") (toL "Go") (toL "*.exe\nbin/\n")
    (by decide) (by decide) (by decide) (by decide) (by decide) (by decide)

/-- Counterexample to C1 as stated: adding a section whose content contains a line
equal to the end marker and deleting it leaves a stray `y` line behind, so the
round trip does not restore the original content even up to blank-line / trailing
whitespace normalization. -/
theorem add_delete_counterexample :
    (Gitignore.Add (toL "keep\n") (toL "Go") (toL "x\n### END: Go\ny")).bind
        (fun A => Gitignore.Delete A (toL "Go")) = .ok (toL "keep\n\ny\n")
    ∧ toL "keep\n\ny\n" ≠ finalizeContent (collapseBlankRuns (splitLines (toL "keep\n")))
    ∧ finalizeContent (collapseBlankRuns (splitLines (toL "keep\n\ny\n")))
        ≠ finalizeContent (collapseBlankRuns (splitLines (toL "keep\n"))) :=
  ⟨by decide, by decide, by decide⟩

/-- Counterexample to C3 as stated: `HasSection` is a substring test, so `Go`
is reported present in a file whose only marker line is `### START: Got`,
although no line trims to exactly `### START: Go`. -/
theorem hasSection_counterexample :
    Gitignore.HasSection (toL "### START: Got\n") (toL "Go") = true
    ∧ ∀ l ∈ splitLines (toL "### START: Got\n"),
        trimSpace l ≠ Gitignore.startMarker (toL "Go") :=
  ⟨by decide, by decide⟩

/-- C3 (amended): `HasSection(n)` returns true iff the string `"### START: " ++ n`
occurs as a contiguous substring of the content — anywhere, not necessarily as a
whole line. -/
theorem hasSection_iff_substring (content n : Str) :
    Gitignore.HasSection content n = true ↔ Gitignore.startMarker n <:+: content :=
  containsSub_iff_occurs

/-- C7: the section-wrapped `AddPatterns` behaves exactly as the spec words it
(`addPatternsSpec`): trim each pattern, skip empties, skip patterns whose wrapped
section `"ignored/" + pattern` already exists, `Add` the rest with the pattern as
the one-line content, and return the parallel added/skipped lists. -/
theorem addPatterns_eq_spec (content : Str) (ps : List Str) :
    Gitignore.AddPatterns content ps = addPatternsSpec content ps := by
  induction ps generalizing content with
  | nil => rfl
  | cons p ps ih =>
    by_cases ht : trimSpace p = []
    · simp [Gitignore.AddPatterns, addPatternsSpec, ht, ih]
    · by_cases hh : Gitignore.HasSection content (Gitignore.IgnoredSectionText ++ trimSpace p)
        = true
      · simp [Gitignore.AddPatterns, addPatternsSpec, ht, hh, ih]
      · cases hA : Gitignore.Add content (Gitignore.IgnoredSectionText ++ trimSpace p)
            (trimSpace p) with
        | error e =>
          simp [Gitignore.AddPatterns, addPatternsSpec, ht, hh, hA, Except.bind]
        | ok c2 =>
          simp [Gitignore.AddPatterns, addPatternsSpec, ht, hh, hA, Except.bind, ih]

/-- C8: the aggregated `List()` keeps the local listing first, then each remote's
listing in configured order with every entry whose lower-cased name already occurs
locally removed; a remote whose listing failed contributes nothing.  At the concrete
instance, a `myproject` listed both locally and remotely appears exactly once. -/
theorem smList_spec (lf : List TemplateFile) (rs : List (Except Str (List TemplateFile))) :
    smList (.ok lf) rs = .ok (lf ++ (rs.map (fun r =>
        match r with
        | .error _ => ([] : List TemplateFile)
        | .ok fs => fs.filter
            (fun f => decide (∀ g ∈ lf, lowerStr g.Name ≠ lowerStr f.Name)))).flatten)
    ∧ smList
        (.ok [⟨toL "myproject", toL "lp", toL "", toL "local"⟩])
        [.ok [⟨toL "MyProject", toL "rp", toL "", toL "github"⟩,
              ⟨toL "other", toL "ro", toL "", toL "github"⟩]]
      = .ok [⟨toL "myproject", toL "lp", toL "", toL "local"⟩,
             ⟨toL "other", toL "ro", toL "", toL "github"⟩]
    ∧ (([(⟨toL "myproject", toL "lp", toL "", toL "local"⟩ : TemplateFile),
         ⟨toL "other", toL "ro", toL "", toL "github"⟩].filter
          (fun f => lowerStr f.Name == toL "myproject")).length = 1) := by
  refine ⟨?_, by decide, by decide⟩
  have hstart : smList (.ok lf) rs
      = .ok (rs.foldl (smMergeRemote (lf.map (fun f => lowerStr f.Name))) lf) := rfl
  rw [hstart]
  congr 1
  have hfold : ∀ (rs' : List (Except Str (List TemplateFile))) (init : List TemplateFile),
      rs'.foldl (smMergeRemote (lf.map (fun f => lowerStr f.Name))) init
      = init ++ (rs'.map (fun r =>
        match r with
        | .error _ => ([] : List TemplateFile)
        | .ok fs => fs.filter
            (fun f => !((lf.map (fun g => lowerStr g.Name)).contains (lowerStr f.Name))))).flatten := by
    intro rs'
    induction rs' with
    | nil => intro init; simp
    | cons r rs' ihr =>
      intro init
      rw [List.foldl_cons, List.map_cons, List.flatten_cons]
      cases r with
      | error e =>
        have hstep : smMergeRemote (lf.map (fun f => lowerStr f.Name)) init (.error e)
            = init := rfl
        rw [hstep, ihr, List.nil_append]
      | ok fs =>
        have hstep : smMergeRemote (lf.map (fun f => lowerStr f.Name)) init (.ok fs)
            = init ++ fs.filter
              (fun f => !((lf.map (fun g => lowerStr g.Name)).contains (lowerStr f.Name))) := rfl
        rw [hstep, ihr, List.append_assoc]
  rw [hfold]
  congr 1
  congr 1
  apply List.map_congr_left
  intro r _
  cases r with
  | error e => rfl
  | ok fs =>
    apply List.filter_congr
    intro f _
    by_cases he : ∃ g ∈ lf, lowerStr g.Name = lowerStr f.Name
    · obtain ⟨g, hg, hgx⟩ := he
      have hcont : (lf.map (fun g => lowerStr g.Name)).contains (lowerStr f.Name) = true := by
        rw [List.contains_iff_exists_mem_beq]
        exact ⟨lowerStr g.Name, List.mem_map_of_mem _ hg, beq_iff_eq.mpr hgx.symm⟩
      have hdec : (decide (∀ g ∈ lf, lowerStr g.Name ≠ lowerStr f.Name)) = false := by
        simp only [decide_eq_false_iff_not]
        intro hall
        exact hall g hg hgx
      rw [hcont, hdec]
      rfl
    · have hcont : (lf.map (fun g => lowerStr g.Name)).contains (lowerStr f.Name) = false := by
        rw [Bool.eq_false_iff]
        intro hc
        rw [List.contains_iff_exists_mem_beq] at hc
        obtain ⟨a', ha', hbeq⟩ := hc
        obtain ⟨g, hg, hga⟩ := List.mem_map.mp ha'
        exact he ⟨g, hg, by rw [hga]; exact (beq_iff_eq.mp hbeq).symm⟩
      have hdec : (decide (∀ g ∈ lf, lowerStr g.Name ≠ lowerStr f.Name)) = true := by
        apply decide_eq_true
        intro g hg hx
        exact he ⟨g, hg, hx⟩
      rw [hcont, hdec]
      rfl

/-- C9: `ListBySource` itself never errors and returns one entry per configured
source, in order: a failing source is mapped to an empty file list together with its
error, a succeeding source to its files and no error. -/
theorem listBySource_total (srcs : List (Str × Except Str (List TemplateFile))) :
    ∃ m, listBySource srcs = .ok m
      ∧ m.length = srcs.length
      ∧ (∀ (i : Nat) (h : i < srcs.length) (h2 : i < m.length),
          m.get ⟨i, h2⟩ = ((srcs.get ⟨i, h⟩).1, sourceEntry (srcs.get ⟨i, h⟩).2))
      ∧ (∀ nr ∈ srcs, (nr.1, sourceEntry nr.2) ∈ m) := by
  refine ⟨_, rfl, by simp, ?_, ?_⟩
  · intro i h h2
    rw [List.get_map]
    cases hsnd : (srcs.get ⟨i, h⟩).2 <;> simp [sourceEntry, hsnd]
  · intro nr hnr
    rw [List.mem_map]
    refine ⟨nr, hnr, ?_⟩
    cases hsnd : nr.2 <;> simp [sourceEntry, hsnd]

/-! ## Trailing-newline invariant lemmas -/

theorem endsOneNL_concat {X : Str} : endsOneNL (X ++ ['\n']) = true ↔ X.getLast? ≠ some '\n' := by
  unfold endsOneNL
  rw [List.getLast?_concat, List.dropLast_concat]
  simp

theorem endMarker_getLast_not_nl {n : Str} (hn : n.getLast? ≠ some '\n') :
    (Gitignore.endMarker n).getLast? ≠ some '\n' := by
  unfold Gitignore.endMarker
  rw [List.getLast?_append]
  cases n with
  | nil => decide
  | cons d m =>
    have h1 : (' ' :: d :: m).getLast? = (d :: m).getLast? := List.getLast?_cons_cons
    rw [h1]
    cases hx : (d :: m).getLast? with
    | none =>
      exfalso
      rw [List.getLast?_eq_none_iff] at hx
      exact List.noConfusion hx
    | some x =>
      rw [Option.or]
      rw [hx] at hn
      exact hn

theorem add_ok_endsOneNL {content n c A : Str} (hn : n.getLast? ≠ some '\n')
    (h : Gitignore.Add content n c = .ok A) : endsOneNL A = true := by
  have hs : ¬ Gitignore.HasSection content n = true := by
    intro hs
    rw [Gitignore.Add, if_pos hs] at h
    exact Except.noConfusion h
  rw [Gitignore.Add, if_neg hs] at h
  simp only [Except.ok.injEq] at h
  rw [← h, endsOneNL_concat, List.getLast?_append]
  cases hx : (Gitignore.endMarker n).getLast? with
  | none =>
    exfalso
    rw [List.getLast?_eq_none_iff] at hx
    exact endMarker_ne_nil n hx
  | some x =>
    rw [Option.or]
    intro hc
    rw [← hx] at hc
    exact endMarker_getLast_not_nl hn hc

theorem trimRightCut_last_not_mem {cut s : Str} {x : Char}
    (h : (trimRightCut cut s).getLast? = some x) : cut.contains x = false := by
  unfold trimRightCut at h
  rw [List.getLast?_reverse] at h
  cases hd : s.reverse.dropWhile (fun c => cut.contains c) with
  | nil => rw [hd] at h; exact Option.noConfusion h
  | cons a t =>
    rw [hd] at h
    simp only [List.head?_cons, Option.some.injEq] at h
    subst h
    exact dropWhile_head_false _ _ hd

theorem delete_ok_endsOneNL {content n A : Str} (h : Gitignore.Delete content n = .ok A) :
    endsOneNL A = true := by
  unfold Gitignore.Delete at h
  by_cases hC : content = []
  · rw [if_pos hC] at h
    exact Except.noConfusion h
  · rw [if_neg hC] at h
    by_cases hf : (Gitignore.deleteLoop (Gitignore.startMarker n) (Gitignore.endMarker n)
        (splitLines content) false false).2 = false
    · rw [if_pos hf] at h
      exact Except.noConfusion h
    · rw [if_neg hf] at h
      simp only [Except.ok.injEq] at h
      by_cases hfc : trimRightCut (toL "\n\t ") (joinLines
          (Gitignore.deleteLoop (Gitignore.startMarker n) (Gitignore.endMarker n)
            (splitLines content) false false).1) = []
      · rw [if_pos hfc] at h
        rw [← h]
        rfl
      · rw [if_neg hfc] at h
        rw [← h, endsOneNL_concat]
        intro hx
        have hcc := trimRightCut_last_not_mem hx
        have hmem : (toL "\n\t ").contains '\n' = true := by decide
        rw [hcc] at hmem
        exact Bool.noConfusion hmem

theorem addPatterns_ok_endsOneNL {ps : List Str} :
    ∀ {content c2 : Str} {a s : List Str},
      Gitignore.AddPatterns content ps = .ok (c2, a, s) →
        c2 = content ∨ endsOneNL c2 = true := by
  induction ps with
  | nil =>
    intro content c2 a s h
    simp only [Gitignore.AddPatterns, Except.ok.injEq, Prod.mk.injEq] at h
    exact Or.inl h.1.symm
  | cons p ps ih =>
    intro content c2 a s h
    by_cases ht : trimSpace p = []
    · simp only [Gitignore.AddPatterns, ht, if_pos rfl] at h
      exact ih h
    · by_cases hh : Gitignore.HasSection content (Gitignore.IgnoredSectionText ++ trimSpace p)
          = true
      · simp only [Gitignore.AddPatterns, if_neg ht, if_pos hh] at h
        cases hrec : Gitignore.AddPatterns content ps with
        | error e => rw [hrec] at h; exact Except.noConfusion h
        | ok r =>
          rw [hrec] at h
          simp only [Option.map, Except.map, Except.ok.injEq, Prod.mk.injEq] at h
          obtain ⟨hc2, _, _⟩ := h
          obtain ⟨c2', a', s'⟩ := r
          cases hc2
          exact ih hrec
      · simp only [Gitignore.AddPatterns, if_neg ht, if_neg hh] at h
        cases hA : Gitignore.Add content (Gitignore.IgnoredSectionText ++ trimSpace p)
            (trimSpace p) with
        | error e => rw [hA] at h; exact Except.noConfusion h
        | ok cA =>
          rw [hA] at h
          replace h : Except.map (fun r => (r.1, trimSpace p :: r.2.1, r.2.2))
              (Gitignore.AddPatterns cA ps) = Except.ok (c2, a, s) := h
          cases hrec : Gitignore.AddPatterns cA ps with
          | error e => rw [hrec] at h; exact Except.noConfusion h
          | ok r =>
            rw [hrec] at h
            simp only [Except.map, Except.ok.injEq, Prod.mk.injEq] at h
            obtain ⟨c2', a', s'⟩ := r
            obtain ⟨hc2, _, _⟩ := h
            cases hc2
            have hnamelast : (Gitignore.IgnoredSectionText ++ trimSpace p).getLast?
                ≠ some '\n' := by
              rw [List.getLast?_append]
              cases hx : (trimSpace p).getLast? with
              | none =>
                exfalso
                rw [List.getLast?_eq_none_iff] at hx
                exact ht hx
              | some x =>
                rw [Option.or]
                intro hc
                rw [← hx] at hc
                exact trimSpace_getLast_not_nl hc
            have hendsA : endsOneNL cA = true := add_ok_endsOneNL hnamelast hA
            rcases ih hrec with hcase | hcase
            · exact Or.inr (hcase ▸ hendsA)
            · exact Or.inr hcase

theorem removePattern_ok_endsOneNL {content p A : Str}
    (h : Gitignore.RemovePattern content p = .ok A) : endsOneNL A = true := by
  unfold Gitignore.RemovePattern at h
  by_cases ht : trimSpace p = []
  · rw [if_pos ht] at h
    exact Except.noConfusion h
  · rw [if_neg ht] at h
    exact delete_ok_endsOneNL h

/-- C10 (amended): after every successful mutating operation the content written
back is empty or ends with exactly one newline — for `Add`, provided the section
name does not itself end in a newline; `Delete` and `RemovePattern`
unconditionally; `AddPatterns` writes only section names derived from trimmed
non-empty patterns, so its final content either is the untouched input (no write
happened) or ends with exactly one newline. -/
theorem mutations_end_with_one_newline :
    (∀ content n c A, n.getLast? ≠ some '\n' → Gitignore.Add content n c = .ok A →
      endsOneNL A = true)
    ∧ (∀ content n A, Gitignore.Delete content n = .ok A → endsOneNL A = true)
    ∧ (∀ content (ps : List Str) c2 (a s : List Str),
        Gitignore.AddPatterns content ps = .ok (c2, a, s) →
          c2 = content ∨ endsOneNL c2 = true)
    ∧ (∀ content p A, Gitignore.RemovePattern content p = .ok A → endsOneNL A = true) :=
  ⟨fun _ _ _ _ hn h => add_ok_endsOneNL hn h,
   fun _ _ _ h => delete_ok_endsOneNL h,
   fun _ _ _ _ _ h => addPatterns_ok_endsOneNL h,
   fun _ _ _ h => removePattern_ok_endsOneNL h⟩

/-- Witness for `mutations_end_with_one_newline`, applied to a concrete `Add`. -/
theorem mutations_end_with_one_newline_witness :
    endsOneNL (toL "### START: Go\nx\n### END: Go\n") = true :=
  mutations_end_with_one_newline.1 [] (toL "Go") (toL "x")
    (toL "### START: Go\nx\n### END: Go\n") (by decide) (by decide)

/-- Counterexample to C10 as stated: `Add` with a section name that ends in a
newline succeeds and writes content ending in two newline characters. -/
theorem add_two_trailing_newlines :
    Gitignore.Add [] (toL "x\n") (toL "p")
      = .ok (toL "### START: x\n\np\n### END: x\n\n")
    ∧ endsOneNL (toL "### START: x\n\np\n### END: x\n\n") = false :=
  ⟨by decide, by decide⟩

/-! ## Supporting lemmas: substring search for URL parsing -/

theorem breakOnSub_nil_eq (sep : Str) :
    breakOnSub sep [] = if List.isPrefixOf sep ([] : Str) then some ([], []) else none := rfl

theorem breakOnSub_cons_eq (sep : Str) (c : Char) (rest : Str) :
    breakOnSub sep (c :: rest) =
      if List.isPrefixOf sep (c :: rest) then some ([], (c :: rest).drop sep.length)
      else (breakOnSub sep rest).map (fun pq => (c :: pq.1, pq.2)) := rfl

theorem breakOnSub_self_append (sep x : Str) (h : sep ≠ []) :
    breakOnSub sep (sep ++ x) = some ([], x) := by
  cases sep with
  | nil => exact absurd rfl h
  | cons s0 s' =>
    rw [List.cons_append, breakOnSub_cons_eq, if_pos, ← List.cons_append, List.drop_left]
    exact List.isPrefixOf_iff_prefix.mpr (by rw [← List.cons_append]; exact List.prefix_append _ _)

theorem breakOnSub_cons_neg {sep : Str} {c : Char} {rest : Str} (h : ¬ sep <+: (c :: rest)) :
    breakOnSub sep (c :: rest) = (breakOnSub sep rest).map (fun pq => (c :: pq.1, pq.2)) := by
  rw [breakOnSub_cons_eq, if_neg]
  exact fun hb => h ( List.isPrefixOf_iff_prefix.mp hb)

theorem breakOnSub_append_no_head {g : Char} {sep' a : Str} (h : g ∉ a) (s : Str) :
    breakOnSub (g :: sep') (a ++ s)
      = (breakOnSub (g :: sep') s).map (fun pq => (a ++ pq.1, pq.2)) := by
  induction a with
  | nil =>
    rw [List.nil_append]
    cases breakOnSub (g :: sep') s <;> simp
  | cons b a ih =>
    have ha : g ∉ a := fun hx => h (List.mem_cons_of_mem b hx)
    have hpre : ¬ (g :: sep') <+: (b :: (a ++ s)) := by
      rintro ⟨t, ht⟩
      rw [List.cons_append] at ht
      injection ht with h1 h2
      exact h (h1 ▸ List.mem_cons_self b a)
    rw [List.cons_append, breakOnSub_cons_neg hpre, ih ha]
    cases breakOnSub (g :: sep') s <;> simp

theorem breakOnSub_none_of_not_mem {sep y : Str} {e : Char} (he : e ∈ sep) (hy : e ∉ y) :
    breakOnSub sep y = none := by
  induction y with
  | nil =>
    rw [breakOnSub_nil_eq, if_neg]
    intro hp
    have h1 := List.prefix_nil.mp ( List.isPrefixOf_iff_prefix.mp hp)
    subst h1
    exact absurd he (List.not_mem_nil e)
  | cons b y ih =>
    have hby : e ∉ y := fun hx => hy (List.mem_cons_of_mem b hx)
    have hpre : ¬ sep <+: (b :: y) := fun hp => hy (hp.sublist.subset he)
    rw [breakOnSub_cons_neg hpre, ih hby]
    rfl

theorem breakOnSub_nil_of_ne {sep : Str} (h : sep ≠ []) : breakOnSub sep [] = none := by
  rw [breakOnSub_nil_eq, if_neg]
  intro hp
  exact h (List.prefix_nil.mp ( List.isPrefixOf_iff_prefix.mp hp))

theorem first_occ_unique {d : Char} :
    ∀ (a1 a2 b1 b2 : Str), a1 ++ d :: b1 = a2 ++ d :: b2 → d ∉ a1 → d ∉ a2 →
      a1 = a2 ∧ b1 = b2 := by
  intro a1
  induction a1 with
  | nil =>
    intro a2 b1 b2 heq h1 h2
    cases a2 with
    | nil =>
      rw [List.nil_append, List.nil_append] at heq
      injection heq with hx ht
      exact ⟨rfl, ht⟩
    | cons x a2 =>
      rw [List.nil_append, List.cons_append] at heq
      injection heq with hx ht
      exact absurd (hx ▸ List.mem_cons_self x a2) h2
  | cons y a1 ih =>
    intro a2 b1 b2 heq h1 h2
    cases a2 with
    | nil =>
      rw [List.cons_append, List.nil_append] at heq
      injection heq with hx ht
      exact absurd (hx.symm ▸ List.mem_cons_self y a1) h1
    | cons x a2 =>
      rw [List.cons_append, List.cons_append] at heq
      injection heq with hx ht
      have h1' : d ∉ a1 := fun hm => h1 (List.mem_cons_of_mem y hm)
      have h2' : d ∉ a2 := fun hm => h2 (List.mem_cons_of_mem x hm)
      obtain ⟨hA, hB⟩ := ih a2 b1 b2 ht h1' h2'
      exact ⟨by rw [hx, hA], hB⟩

theorem breakOnSub_skip_seg {p x : Str} {d : Char} (hp : p ≠ []) (hdp : d ∉ p) (hdx : d ∉ x)
    (hsuf : ¬ p <:+ x) (y : Str) :
    breakOnSub (p ++ [d]) (x ++ d :: y)
      = (breakOnSub (p ++ [d]) y).map (fun pq => (x ++ d :: pq.1, pq.2)) := by
  induction x with
  | nil =>
    rw [List.nil_append]
    have hpre : ¬ (p ++ [d]) <+: (d :: y) := by
      rintro ⟨t, ht⟩
      cases p with
      | nil => exact absurd rfl hp
      | cons p0 p' =>
        rw [List.cons_append, List.cons_append] at ht
        injection ht with h1 h2
        exact hdp (h1.symm ▸ List.mem_cons_self p0 p')
    rw [breakOnSub_cons_neg hpre]
    cases breakOnSub (p ++ [d]) y <;> simp
  | cons b x' ih =>
    have hdx' : d ∉ x' := fun hm => hdx (List.mem_cons_of_mem b hm)
    have hsuf' : ¬ p <:+ x' := fun hs => hsuf (hs.trans (List.suffix_cons b x'))
    have hpre : ¬ (p ++ [d]) <+: (b :: (x' ++ d :: y)) := by
      rintro ⟨t, ht⟩
      rw [List.append_assoc, List.singleton_append] at ht
      have heq : p ++ d :: t = (b :: x') ++ d :: y := by
        rw [List.cons_append]
        exact ht
      obtain ⟨hA, _⟩ := first_occ_unique p (b :: x') t y heq hdp hdx
      exact hsuf (hA ▸ List.suffix_refl (b :: x'))
    rw [List.cons_append, breakOnSub_cons_neg hpre, ih hdx' hsuf']
    cases breakOnSub (p ++ [d]) y <;> simp

theorem prefix_append_cases {α} {l a b : List α} (h : l <+: a ++ b) :
    l <+: a ∨ ∃ w, l = a ++ w ∧ w <+: b := by
  by_cases hle : l.length ≤ a.length
  · exact Or.inl (List.prefix_of_prefix_length_le h ( List.prefix_append a b) hle)
  · right
    have ha : a <+: l := List.prefix_of_prefix_length_le ( List.prefix_append a b) h
      (Nat.le_of_not_le hle)
    obtain ⟨w, hw⟩ := ha
    refine ⟨w, hw.symm, ?_⟩
    obtain ⟨t, ht⟩ := h
    rw [← hw, List.append_assoc] at ht
    exact ⟨t, List.append_cancel_left ht⟩

theorem not_suffix_append {p A o : Str} (ho : ¬ p <:+ o)
    (hlast : ∀ x, A.getLast? = some x → x ∉ p) : ¬ p <:+ (A ++ o) := by
  intro hs
  have hs' : p.reverse <+: (A ++ o).reverse := List.reverse_prefix.mpr hs
  rw [List.reverse_append] at hs'
  rcases prefix_append_cases hs' with hc | ⟨w, hw, hwb⟩
  · exact ho ( List.reverse_prefix.mp hc)
  · cases w with
    | nil =>
      rw [List.append_nil] at hw
      have : p = o := by
        have h2 := congrArg List.reverse hw
        rwa [List.reverse_reverse, List.reverse_reverse] at h2
      exact ho (this ▸ List.suffix_refl o)
    | cons w0 w' =>
      have hw0A : A.reverse.head? = some w0 := by
        obtain ⟨t, ht⟩ := hwb
        rw [← ht, List.cons_append]
        rfl
      have hw0last : A.getLast? = some w0 := by
        rw [List.getLast?_eq_head?_reverse]
        exact hw0A
      have hw0p : w0 ∈ p := by
        have : w0 ∈ p.reverse := by
          rw [hw]
          exact List.mem_append_right _ (List.mem_cons_self w0 w')
        rwa [List.mem_reverse] at this
      exact hlast w0 hw0last hw0p

/-! ## Supporting lemmas: single-character split and cutset trimming -/

theorem splitCh_cons_eq (sep c : Char) (rest : Str) :
    splitCh sep (c :: rest) =
      if c = sep then [] :: splitCh sep rest
      else
        match splitCh sep rest with
        | [] => [[c]]
        | p :: ps => (c :: p) :: ps := rfl

theorem splitCh_ne_nil (c : Char) (s : Str) : splitCh c s ≠ [] := by
  cases s with
  | nil => simp [splitCh]
  | cons a t =>
    rw [splitCh_cons_eq]
    by_cases h : a = c
    · rw [if_pos h]; simp
    · rw [if_neg h]
      cases splitCh c t <;> simp

theorem splitCh_not_mem {c : Char} {r : Str} (h : c ∉ r) : splitCh c r = [r] := by
  induction r with
  | nil => rfl
  | cons a t ih =>
    have ha : ¬ a = c := fun hx => h (hx ▸ List.mem_cons_self a t)
    have ht : c ∉ t := fun hx => h (List.mem_cons_of_mem a hx)
    rw [splitCh_cons_eq, if_neg ha, ih ht]

theorem splitCh_append_of_not_mem {c : Char} {o : Str} (h : c ∉ o) (s : Str) :
    splitCh c (o ++ s) =
      match splitCh c s with
      | [] => [o]
      | p :: ps => (o ++ p) :: ps := by
  induction o with
  | nil =>
    rw [List.nil_append]
    cases hs : splitCh c s with
    | nil => exact absurd hs (splitCh_ne_nil c s)
    | cons p ps => simp
  | cons a o' ih =>
    have ha : ¬ a = c := fun hx => h (hx ▸ List.mem_cons_self a o')
    have ho' : c ∉ o' := fun hx => h (List.mem_cons_of_mem a hx)
    rw [List.cons_append, splitCh_cons_eq, if_neg ha, ih ho']
    cases hs : splitCh c s with
    | nil => exact absurd hs (splitCh_ne_nil c s)
    | cons p ps => simp

theorem dropWhile_head_no {p : Char → Bool} {s : Str}
    (h : ∀ x, s.head? = some x → p x = false) : s.dropWhile p = s := by
  cases s with
  | nil => rfl
  | cons a t =>
    rw [List.dropWhile_cons, if_neg]
    intro hx
    have := h a rfl
    rw [this] at hx
    exact Bool.noConfusion hx

theorem trimRightCut_no {cut s : Str}
    (h : ∀ x, s.getLast? = some x → cut.contains x = false) : trimRightCut cut s = s := by
  unfold trimRightCut
  rw [dropWhile_head_no, List.reverse_reverse]
  intro x hx
  rw [List.head?_reverse] at hx
  exact h x hx

theorem trimCut_no {cut s : Str}
    (h1 : ∀ x, s.head? = some x → cut.contains x = false)
    (h2 : ∀ x, s.getLast? = some x → cut.contains x = false) : trimCut cut s = s := by
  unfold trimCut
  rw [dropWhile_head_no h1]
  exact trimRightCut_no h2

theorem not_gitsuffix_slash {X r : Str} (hr : r ≠ []) (hrg : ¬ (toL ".git") <:+ r) :
    hasSuffixB (toL ".git") (X ++ '/' :: r) = false := by
  have hrb : List.isPrefixOf ['t', 'i', 'g', '.'] r.reverse = false := by
    rw [Bool.eq_false_iff]
    intro hx
    exact hrg (List.isSuffixOf_iff_suffix.mp hx)
  show List.isPrefixOf (toL ".git").reverse (X ++ '/' :: r).reverse = false
  have hxr : (X ++ '/' :: r).reverse = r.reverse ++ '/' :: X.reverse := by
    rw [List.reverse_append, List.reverse_cons, List.append_assoc, List.singleton_append]
  have hpat : (toL ".git").reverse = ['t', 'i', 'g', '.'] := rfl
  rw [hxr, hpat]
  cases hrev : r.reverse with
  | nil => exact absurd (by rwa [List.reverse_eq_nil_iff] at hrev) hr
  | cons c1 t1 =>
    rw [hrev] at hrb
    cases t1 with
    | nil => simp [List.isPrefixOf, show ('i' == '/') = false from rfl]
    | cons c2 t2 =>
      cases t2 with
      | nil => simp [List.isPrefixOf, show ('g' == '/') = false from rfl]
      | cons c3 t3 =>
        cases t3 with
        | nil => simp [List.isPrefixOf, show ('.' == '/') = false from rfl]
        | cons c4 t4 =>
          simp only [List.cons_append, List.isPrefixOf] at hrb ⊢
          exact hrb

theorem trimSuffixStr_of_not {suf s : Str} (h : hasSuffixB suf s = false) :
    trimSuffixStr suf s = s := by
  unfold trimSuffixStr
  rw [h]
  simp

theorem trimSuffixStr_append (x suf : Str) : trimSuffixStr suf (x ++ suf) = x := by
  unfold trimSuffixStr
  have h : hasSuffixB suf (x ++ suf) = true := by
    show List.isSuffixOf suf (x ++ suf) = true
    rw [List.isSuffixOf_iff_suffix]
    exact List.suffix_append x suf
  rw [h, if_pos rfl, List.length_append, Nat.add_sub_cancel]
  exact List.take_left x suf

theorem parseRepoCore_https_gen {o r path : Str}
    (hpath : breakOnSub GithubClient.ghSlash path = none)
    (htrim : trimCut (toL "/") path = o ++ '/' :: r)
    (hos : '/' ∉ o) (hrs : '/' ∉ r) :
    GithubClient.parseRepoCore (toL "https://github.com/" ++ path) = .ok (o, r) := by
  have hbr : breakOnSub GithubClient.ghSlash (toL "https://github.com/" ++ path)
      = some (toL "https://", path) := by
    have hc : toL "https://github.com/" = toL "https://" ++ GithubClient.ghSlash := rfl
    rw [hc, List.append_assoc]
    have hgh : GithubClient.ghSlash = 'g' :: toL "ithub.com/" := rfl
    rw [hgh, breakOnSub_append_no_head (show 'g' ∉ toL "https://" by decide), ← hgh,
      breakOnSub_self_append _ _ (show GithubClient.ghSlash ≠ [] by decide)]
    simp
  have hsp : splitCh '/' (o ++ '/' :: r) = [o, r] := by
    rw [splitCh_append_of_not_mem hos, splitCh_cons_eq, if_pos rfl, splitCh_not_mem hrs]
    simp
  simp [GithubClient.parseRepoCore, containsSub, hbr, hpath, htrim, hsp]

theorem parseRepoCore_ssh {o r : Str} (hos : '/' ∉ o) (hrs : '/' ∉ r)
    (hogh : ¬ (toL "github.com") <:+ o) :
    GithubClient.parseRepoCore (GithubClient.sshStart ++ (o ++ '/' :: r)) = .ok (o, r) := by
  have hsufx : ¬ (toL "github.com") <:+ (GithubClient.sshStart ++ o) := by
    apply not_suffix_append hogh
    intro x hx
    have hxc : x = ':' := by
      have : GithubClient.sshStart.getLast? = some ':' := rfl
      rw [this] at hx
      exact (Option.some.injEq _ _ ▸ hx).symm ▸ rfl
    subst hxc
    decide
  have hmem : '/' ∉ GithubClient.sshStart ++ o := by
    intro hm
    rcases List.mem_append.mp hm with hm | hm
    · exact absurd hm (by decide)
    · exact hos hm
  have hnone : breakOnSub GithubClient.ghSlash ((GithubClient.sshStart ++ o) ++ '/' :: r)
      = none := by
    have hghdec : GithubClient.ghSlash = toL "github.com" ++ ['/'] := rfl
    rw [hghdec, breakOnSub_skip_seg (show toL "github.com" ≠ [] by decide)
      (show '/' ∉ toL "github.com" by decide) hmem hsufx r,
      breakOnSub_none_of_not_mem (show '/' ∈ toL "github.com" ++ ['/'] by decide) hrs]
    rfl
  have hcont : containsSub GithubClient.ghSlash (GithubClient.sshStart ++ (o ++ '/' :: r))
      = false := by
    rw [containsSub, ← List.append_assoc, hnone]
    rfl
  have hpre : hasPrefixB GithubClient.sshStart (GithubClient.sshStart ++ (o ++ '/' :: r))
      = true := by
    show List.isPrefixOf _ _ = true
    rw [ List.isPrefixOf_iff_prefix]
    exact List.prefix_append _ _
  have hdrop : (GithubClient.sshStart ++ (o ++ '/' :: r)).drop GithubClient.sshStart.length
      = o ++ '/' :: r := List.drop_left _ _
  have hsp : splitCh '/' (o ++ '/' :: r) = [o, r] := by
    rw [splitCh_append_of_not_mem hos, splitCh_cons_eq, if_pos rfl, splitCh_not_mem hrs]
    simp
  simp [GithubClient.parseRepoCore, hcont, hpre, hdrop, hsp]

theorem not_gitsuffix_concat (y : Str) : hasSuffixB (toL ".git") (y ++ ['/']) = false := by
  show List.isPrefixOf (toL ".git").reverse (y ++ ['/']).reverse = false
  rw [List.reverse_append]
  simp [List.isPrefixOf, show ('t' == '/') = false from rfl]

theorem contains_slash_eq_false {x : Char} (h : x ≠ '/') : (toL "/").contains x = false := by
  rw [Bool.eq_false_iff]
  intro hc
  rw [List.contains_iff_exists_mem_beq] at hc
  obtain ⟨a2, ha2, hbeq⟩ := hc
  have h0 : toL "/" = ['/'] := rfl
  rw [h0, List.mem_singleton] at ha2
  subst ha2
  exact h (beq_iff_eq.mp hbeq)

theorem contains_slash_head {o : Str} (ho : o ≠ []) (hos : '/' ∉ o) :
    ∀ x, (o ++ s).head? = some x → (toL "/").contains x = false := by
  intro x hx
  cases o with
  | nil => exact absurd rfl ho
  | cons o0 o' =>
    rw [List.cons_append, List.head?_cons, Option.some.injEq] at hx
    rw [← hx]
    exact contains_slash_eq_false (fun hc => hos (hc ▸ List.mem_cons_self o0 o'))

theorem trimCut_slash_fix {o r : Str} (ho : o ≠ []) (hr : r ≠ []) (hos : '/' ∉ o)
    (hrs : '/' ∉ r) : trimCut (toL "/") (o ++ '/' :: r) = o ++ '/' :: r := by
  apply trimCut_no (contains_slash_head ho hos)
  intro x hx
  rw [List.getLast?_append] at hx
  cases r with
  | nil => exact absurd rfl hr
  | cons r0 r' =>
    rw [show ('/' :: r0 :: r').getLast? = (r0 :: r').getLast? from List.getLast?_cons_cons]
      at hx
    cases hlast : (r0 :: r').getLast? with
    | none =>
      exfalso
      rw [List.getLast?_eq_none_iff] at hlast
      exact List.noConfusion hlast
    | some y =>
      rw [hlast, Option.or] at hx
      have hyx : y = x := by injection hx
      rw [← hyx]
      have hmem : y ∈ r0 :: r' := by
        obtain ⟨ys, hys⟩ := List.getLast?_eq_some_iff.mp hlast
        rw [hys]
        exact List.mem_append_right ys (List.mem_singleton.mpr rfl)
      exact contains_slash_eq_false (fun hc => hrs (hc ▸ hmem))

theorem trimCut_slash_concat {o r : Str} (ho : o ≠ []) (hr : r ≠ []) (hos : '/' ∉ o)
    (hrs : '/' ∉ r) : trimCut (toL "/") (o ++ '/' :: (r ++ ['/'])) = o ++ '/' :: r := by
  unfold trimCut
  rw [dropWhile_head_no (contains_slash_head ho hos),
    show o ++ '/' :: (r ++ ['/']) = (o ++ '/' :: r) ++ ['/'] by
      rw [List.append_assoc, List.cons_append],
    trimRightCut_concat (show (toL "/").contains '/' = true from rfl)]
  have hfix := trimCut_slash_fix ho hr hos hrs
  unfold trimCut at hfix
  rwa [dropWhile_head_no (contains_slash_head ho hos)] at hfix

/-- C4 (amended): `parseRepoURL` accepts exactly github.com URLs.  For slash-free
non-empty `owner` and `repo` (with `repo` not ending in `.git`, and neither ending
in `github.com`), the forms `https://github.com/owner/repo`, with optional `.git`
or `/` suffix, and `git@github.com:owner/repo.git` all parse to `(owner, repo)`;
every string that, after trimming a `.git` suffix, neither contains `github.com/`
nor starts with `git@github.com:` is an "unsupported URL format" parse error.  In
particular the generic-host examples of the original claim fail: URLs on
`example.com` are parse errors. -/
theorem parseRepoURL_github_forms (o r : Str)
    (ho : o ≠ []) (hr : r ≠ []) (hos : '/' ∉ o) (hrs : '/' ∉ r)
    (hogh : ¬ (toL "github.com") <:+ o) (hrgh : ¬ (toL "github.com") <:+ r)
    (hrgit : ¬ (toL ".git") <:+ r) :
    GithubClient.parseRepoURL (toL "https://github.com/" ++ (o ++ '/' :: r)) = .ok (o, r)
    ∧ GithubClient.parseRepoURL ((toL "https://github.com/" ++ (o ++ '/' :: r)) ++ toL ".git")
        = .ok (o, r)
    ∧ GithubClient.parseRepoURL ((toL "https://github.com/" ++ (o ++ '/' :: r)) ++ ['/'])
        = .ok (o, r)
    ∧ GithubClient.parseRepoURL ((toL "git@github.com:" ++ (o ++ '/' :: r)) ++ toL ".git")
        = .ok (o, r)
    ∧ (∀ s : Str, containsSub GithubClient.ghSlash (trimSuffixStr GithubClient.gitExt s) = false →
        hasPrefixB GithubClient.sshStart (trimSuffixStr GithubClient.gitExt s) = false →
        GithubClient.parseRepoURL s
          = .error (toL "unsupported URL format: " ++ trimSuffixStr GithubClient.gitExt s))
    ∧ GithubClient.parseRepoURL (toL "https://github.com/github/gitignore")
        = .ok (toL "github", toL "gitignore")
    ∧ GithubClient.parseRepoURL (toL "git@github.com:owner/repo.git")
        = .ok (toL "owner", toL "repo")
    ∧ GithubClient.parseRepoURL (toL "https://github.com/owner")
        = .error (toL "invalid GitHub URL: https://github.com/owner")
    ∧ GithubClient.parseRepoURL (toL "https://example.com/github/gitignore")
        = .error (toL "unsupported URL format: https://example.com/github/gitignore") := by
  have hghdec : GithubClient.ghSlash = toL "github.com" ++ ['/'] := rfl
  have hpathA : breakOnSub GithubClient.ghSlash (o ++ '/' :: r) = none := by
    rw [hghdec, breakOnSub_skip_seg (by decide) (by decide) hos hogh r,
      breakOnSub_none_of_not_mem (show '/' ∈ toL "github.com" ++ ['/'] by decide) hrs]
    rfl
  have hpathB : breakOnSub GithubClient.ghSlash (o ++ '/' :: (r ++ ['/'])) = none := by
    rw [hghdec, breakOnSub_skip_seg (by decide) (by decide) hos hogh (r ++ ['/']),
      breakOnSub_skip_seg (by decide) (by decide) hrs hrgh ([] : Str),
      breakOnSub_nil_of_ne (show toL "github.com" ++ ['/'] ≠ [] by decide)]
    rfl
  have htrimA := trimCut_slash_fix ho hr hos hrs
  have htrimB := trimCut_slash_concat ho hr hos hrs
  refine ⟨?_, ?_, ?_, ?_, ?_, by decide, by decide, by decide, by decide⟩
  · have h1a : hasSuffixB GithubClient.gitExt (toL "https://github.com/" ++ (o ++ '/' :: r))
        = false := by
      rw [← List.append_assoc]
      exact not_gitsuffix_slash hr hrgit
    rw [GithubClient.parseRepoURL, trimSuffixStr_of_not h1a]
    exact parseRepoCore_https_gen hpathA htrimA hos hrs
  · rw [show (toL ".git") = GithubClient.gitExt from rfl, GithubClient.parseRepoURL,
      trimSuffixStr_append]
    exact parseRepoCore_https_gen hpathA htrimA hos hrs
  · have h3a : hasSuffixB GithubClient.gitExt
        ((toL "https://github.com/" ++ (o ++ '/' :: r)) ++ ['/']) = false :=
      not_gitsuffix_concat _
    rw [GithubClient.parseRepoURL, trimSuffixStr_of_not h3a,
      show (toL "https://github.com/" ++ (o ++ '/' :: r)) ++ ['/']
          = toL "https://github.com/" ++ (o ++ '/' :: (r ++ ['/'])) by
        simp [List.append_assoc]]
    exact parseRepoCore_https_gen hpathB htrimB hos hrs
  · rw [show (toL ".git") = GithubClient.gitExt from rfl,
      show (toL "git@github.com:") = GithubClient.sshStart from rfl,
      GithubClient.parseRepoURL, trimSuffixStr_append]
    exact parseRepoCore_ssh hos hrs hogh
  · intro s h1 h2
    rw [GithubClient.parseRepoURL, GithubClient.parseRepoCore,
      if_neg (by rw [h1]; exact Bool.false_ne_true),
      if_neg (by rw [h2]; exact Bool.false_ne_true)]

/-- Witness for `parseRepoURL_github_forms` at owner `octo`, repo `proj`. -/
theorem parseRepoURL_github_forms_witness :
    GithubClient.parseRepoURL (toL "https://github.com/" ++ (toL "octo" ++ '/' :: toL "proj"))
      = .ok (toL "octo", toL "proj") :=
  (parseRepoURL_github_forms (toL "octo") (toL "proj") (by decide) (by decide) (by decide)
    (by decide) (by decide) (by decide) (by decide)).1

/-- Counterexample to C4 as stated: the accepted host is hardcoded to github.com,
so `https://example.com/github/gitignore` is a parse error rather than parsing to
`(github, gitignore)`; likewise the SSH form requires user `git` and host
`github.com`. -/
theorem parseRepoURL_counterexample :
    GithubClient.parseRepoURL (toL "https://example.com/github/gitignore")
      = .error (toL "unsupported URL format: https://example.com/github/gitignore")
    ∧ GithubClient.parseRepoURL (toL "git@example.com:owner/repo.git")
      = .error (toL "unsupported URL format: git@example.com:owner/repo") :=
  ⟨by decide, by decide⟩
